import Mathlib

/-!
Verification development for the curation state machine of
`spanish-flashcard-builder` (`src/spanish_flashcard_builder/pipeline/curate/state.py`,
`src/spanish_flashcard_builder/components/vocab_selector/commands.py`, and the
legacy `src/vocab_selector/state.py`).

The Python classes are embedded shallowly: the mutable `State` object becomes a
record `St` that every operation threads explicitly, the external
Merriam-Webster lookup collaborator (`mw_api.look_up`) becomes an `Oracle`
parameter, a raised `CurationError` becomes a `none` result, and the
checkpoint file becomes an explicit `Option Json` value.
-/

namespace SFB

/-- Modelled from the spec: `pipeline/curate/models.py` is imported by
`state.py` but is not present under `src/`.  Per the spec (section 2) a
`DictionaryEntry` is one sense of a term and carries a stable string id (the
undo/delete key), a part-of-speech tag and a definitions list; the legacy
`src/vocab_selector/models.py` corroborates this shape. -/
structure DictionaryEntry where
  id : String
  part_of_speech : String
  definitions : List String
deriving DecidableEq, Repr

/-- Modelled from the spec: a `DictionaryTerm` is a headword plus its ordered
entries (`mw_api.look_up` constructs it as `DictionaryTerm(search_word,
dictionary_entries)`). -/
structure DictionaryTerm where
  headword : String
  entries : List DictionaryEntry
deriving DecidableEq, Repr

/-- The external lookup collaborator `mw_api.look_up`:
`Except.error ()` models `look_up` raising an exception,
`Except.ok none` models a "not found" result, and
`Except.ok (some t)` models a returned term. -/
abbrev Oracle := String → Except Unit (Option DictionaryTerm)

/-- Python `dict` read, `d.get(k)`, on an insertion-ordered association
list (the first binding wins; `dict_set` never creates duplicates). -/
def dict_get : List (String × Nat) → String → Option Nat
  | [], _ => none
  | p :: d, k => if p.1 = k then some p.2 else dict_get d k

/-- Python `dict` write, `d[k] = v`: overwrite in place when the key exists,
otherwise append, preserving insertion order (the order `json.dump` will
serialize). -/
def dict_set : List (String × Nat) → String → Nat → List (String × Nat)
  | [], k, v => [(k, v)]
  | p :: d, k, v => if p.1 = k then (k, v) :: d else p :: dict_set d k v

/-- `_StateData` from `pipeline/curate/state.py`: the only persisted, mutable
cursor state. -/
structure StateData where
  headword_index : Nat
  entry_index : Nat
  headword_entry_count : List (String × Nat)
deriving DecidableEq, Repr

/-- The dataclass defaults: `headword_index = 0`, `entry_index = 0`, empty
count map. -/
def StateData.fresh : StateData := ⟨0, 0, []⟩

/-- The in-memory `State`: `_data` plus the session lookup cache
`_lookup_cache`.  The headword list and the oracle are parameters of every
operation because `State` never mutates them. -/
structure St where
  data : StateData
  cache : String → Option DictionaryTerm

/-- Result of one `_get_term_for_headword` call: the returned term, the two
updated maps, and whether the external `look_up` collaborator was consulted
(`false` exactly on a cache hit). -/
structure LookupStep where
  term : Option DictionaryTerm
  counts : List (String × Nat)
  cache : String → Option DictionaryTerm
  consulted : Bool

/-- `State._get_term_for_headword`: on a cache hit, return the cached term; on
a miss, call `look_up`; when it returns a term with a nonempty entry list,
cache it and record `headword_entry_count[word] = len(term.entries)`;
otherwise (not found, empty entries, or any exception — caught and logged)
return `None` without touching either map. -/
def get_term_for_headword (O : Oracle) (w : String)
    (counts : List (String × Nat)) (cache : String → Option DictionaryTerm) :
    LookupStep :=
  match cache w with
  | some t => ⟨some t, counts, cache, false⟩
  | none =>
    match O w with
    | .ok (some t) =>
      if t.entries.isEmpty then ⟨none, counts, cache, true⟩
      else ⟨some t, dict_set counts w t.entries.length,
            fun w' => if w' = w then some t else cache w', true⟩
    | .ok none => ⟨none, counts, cache, true⟩
    | .error _ => ⟨none, counts, cache, true⟩

/-- `State._get_term_for_headword` acting on a whole `St`. -/
def get_term_st (O : Oracle) (w : String) (s : St) : Option DictionaryTerm × St :=
  let r := get_term_for_headword O w s.data.headword_entry_count s.cache
  (r.term, ⟨⟨s.data.headword_index, s.data.entry_index, r.counts⟩, r.cache⟩)

/-- The Python expression `new_index = self._data.headword_index + step`
where only `step = +1` (`pos = true`) and `step = -1` (`pos = false`) are
ever passed (via `_go_to_next_headword` and `_go_to_previous_headword`). -/
def step_index (pos : Bool) (i : Nat) : Int :=
  cond pos ((i : Int) + 1) ((i : Int) - 1)

/-- `State._advance_headword(step)`: repeatedly move `headword_index` by
`step`, resetting `entry_index` to 0, until the current word resolves to a
term (return `true`) or the new index falls out of range (return `false`,
keeping whatever partial movement already happened — the source does not
restore the indices mutated by earlier iterations). -/
def advance_headword (O : Oracle) (hws : List String) (pos : Bool) (s : St) :
    Bool × St :=
  if _h : 0 ≤ step_index pos s.data.headword_index ∧
      step_index pos s.data.headword_index < (hws.length : Int) then
    match (get_term_for_headword O
        (hws.getD (step_index pos s.data.headword_index).toNat "")
        s.data.headword_entry_count s.cache).term with
    | some _ =>
      (true, ⟨⟨(step_index pos s.data.headword_index).toNat, 0,
        (get_term_for_headword O
          (hws.getD (step_index pos s.data.headword_index).toNat "")
          s.data.headword_entry_count s.cache).counts⟩,
        (get_term_for_headword O
          (hws.getD (step_index pos s.data.headword_index).toNat "")
          s.data.headword_entry_count s.cache).cache⟩)
    | none =>
      advance_headword O hws pos ⟨⟨(step_index pos s.data.headword_index).toNat, 0,
        (get_term_for_headword O
          (hws.getD (step_index pos s.data.headword_index).toNat "")
          s.data.headword_entry_count s.cache).counts⟩,
        (get_term_for_headword O
          (hws.getD (step_index pos s.data.headword_index).toNat "")
          s.data.headword_entry_count s.cache).cache⟩
  else (false, s)
termination_by cond pos (hws.length - s.data.headword_index) s.data.headword_index
decreasing_by
  cases pos
  all_goals simp only [step_index, Bool.cond_false, Bool.cond_true] at *
  all_goals omega

/-- `State._go_to_next_headword`. -/
def go_to_next_headword (O : Oracle) (hws : List String) (s : St) : Bool × St :=
  advance_headword O hws true s

/-- `State._go_to_previous_headword`. -/
def go_to_previous_headword (O : Oracle) (hws : List String) (s : St) : Bool × St :=
  advance_headword O hws false s

/-- `State._ensure_valid_state`: `while not getTerm(current): if not
goNext(): raise CurationError`.  `none` models the raised `CurationError`
(either "Global headword index out of range" from `_current_word`, or "No
headwords with entries found").  The source loop re-enters its condition
after a successful `_go_to_next_headword`; since `_advance_headword` only
stops on a headword whose term resolves (and `_get_term_for_headword`
caches the term it returns), that re-check is a cache hit that leaves the
state unchanged, so the embedding unrolls it. -/
def ensure_valid_state (O : Oracle) (hws : List String) (s : St) : Option St :=
  match hws[s.data.headword_index]? with
  | none => none
  | some w =>
    let r := get_term_for_headword O w s.data.headword_entry_count s.cache
    let s' : St := ⟨⟨s.data.headword_index, s.data.entry_index, r.counts⟩, r.cache⟩
    match r.term with
    | some _ => some s'
    | none =>
      match advance_headword O hws true s' with
      | (true, s'') => some s''
      | (false, _) => none

/-- `State.current_term`: resolve the current headword through the cache; if
that fails, `_go_to_next_headword` and recurse; raise `CurationError`
(`none`) if no further valid headword exists.  As in `ensure_valid_state`,
the recursive call after a successful advance is a cache hit: the embedding
performs that one re-lookup explicitly instead of recursing. -/
def current_term (O : Oracle) (hws : List String) (s : St) :
    Option (DictionaryTerm × St) :=
  match hws[s.data.headword_index]? with
  | none => none
  | some w =>
    let r := get_term_for_headword O w s.data.headword_entry_count s.cache
    let s' : St := ⟨⟨s.data.headword_index, s.data.entry_index, r.counts⟩, r.cache⟩
    match r.term with
    | some t => some (t, s')
    | none =>
      match advance_headword O hws true s' with
      | (true, s'') =>
        match hws[s''.data.headword_index]? with
        | none => none
        | some w'' =>
          let r'' := get_term_for_headword O w'' s''.data.headword_entry_count s''.cache
          match r''.term with
          | some t =>
            some (t, ⟨⟨s''.data.headword_index, s''.data.entry_index, r''.counts⟩, r''.cache⟩)
          | none => none
      | (false, _) => none

/-- `State.current_entry`: `current_term().entries[entry_index]`, raising
`CurationError` (`none`) when the term has no entries or the index is out of
range. -/
def current_entry (O : Oracle) (hws : List String) (s : St) :
    Option (DictionaryEntry × St) :=
  match current_term O hws s with
  | none => none
  | some (t, s') =>
    match t.entries[s'.data.entry_index]? with
    | some e => some (e, s')
    | none => none

/-- `State.commit_entry`: increment `entry_index`; read the current term
(which can itself auto-advance); if the possibly reset `entry_index` has
reached `headword_entry_count.get(current_word, 0)`, `_go_to_next_headword`
(logging end-of-list when it fails, keeping the partially advanced state).
`_save_history` always runs at the end; persistence is modelled separately
(`commit_entry_persist`).  `none` models `CurationError` escaping from
`current_term`. -/
def commit_entry (O : Oracle) (hws : List String) (s : St) : Option St :=
  let s1 : St :=
    ⟨⟨s.data.headword_index, s.data.entry_index + 1, s.data.headword_entry_count⟩, s.cache⟩
  match current_term O hws s1 with
  | none => none
  | some (t, s2) =>
    let entry_count := (dict_get s2.data.headword_entry_count t.headword).getD 0
    if s2.data.entry_index ≥ entry_count then
      some (advance_headword O hws true s2).2
    else some s2

/-- `State.undo`: the returned `Bool` records whether `_save_history` ran
(the source returns early, without saving, from the two no-op branches).
When `entry_index` is 0 and `headword_index > 0`, the source first calls
`_go_to_previous_headword` (mutating the indices even when it fails) and
only saves when it succeeded; on success `entry_index` becomes
`max(0, count - 1)`, which over `Nat` is `count - 1`.  `none` models a
`CurationError` escaping from `current_term`. -/
def undo_core (O : Oracle) (hws : List String) (s : St) : Option (St × Bool) :=
  if s.data.entry_index > 0 then
    some (⟨⟨s.data.headword_index, s.data.entry_index - 1,
      s.data.headword_entry_count⟩, s.cache⟩, true)
  else if s.data.headword_index > 0 then
    match go_to_previous_headword O hws s with
    | (true, s') =>
      match current_term O hws s' with
      | none => none
      | some (t, s'') =>
        let count := (dict_get s''.data.headword_entry_count t.headword).getD 0
        some (⟨⟨s''.data.headword_index, count - 1,
          s''.data.headword_entry_count⟩, s''.cache⟩, true)
    | (false, s') => some (s', false)
  else some (s, false)

/-- `State.undo` without the save flag. -/
def undo (O : Oracle) (hws : List String) (s : St) : Option St :=
  (undo_core O hws s).map Prod.fst

/-- `State.__init__` after `_load_headword_list` and `_load_history`: start
from the restored (or fresh) `_StateData`, an empty lookup cache, and
self-correct via `_ensure_valid_state`. -/
def init_state (O : Oracle) (hws : List String) (restored : StateData) : Option St :=
  ensure_valid_state O hws ⟨restored, fun _ => none⟩

/-- A line of the word-list file, modelled as its character list (Lean
`String.trim` is compiled code the kernel cannot evaluate, so the embedding
works on `List Char` instead). -/
abbrev Line := List Char

/-- Python `str.strip()` with no arguments: remove leading and trailing
whitespace. -/
def py_strip (l : Line) : Line :=
  ((l.dropWhile Char.isWhitespace).reverse.dropWhile Char.isWhitespace).reverse

/-- Python `str.split()` with no arguments: the maximal whitespace-free
runs; a blank-only string yields the empty list. -/
def py_split (l : Line) : List Line :=
  (l.splitOnP Char.isWhitespace).filter (fun t => t ≠ [])

/-- `State._load_headword_list` (pipeline/curate/state.py):
`[line.strip() for line in f if line.strip()]` — each non-blank line is kept
whole (stripped), in file order. -/
def load_headword_list (lines : List Line) : List Line :=
  (lines.map py_strip).filter (fun l => l ≠ [])

/-- `State._load_search_words` (legacy src/vocab_selector/state.py):
`[line.strip().split()[0] for line in f if line.strip()]` — the first
whitespace-delimited token of each non-blank line.  `split()` of a non-blank
stripped line is never empty, so the `headD` default is never returned. -/
def load_search_words (lines : List Line) : List Line :=
  ((lines.map py_strip).filter (fun l => l ≠ [])).map
    (fun l => (py_split l).headD [])

/-- The JSON values `_save_history` writes and `_load_history` reads: the
checkpoint object holds natural numbers and one string-keyed object of
numbers, so only those shapes are modelled. -/
inductive Json where
  | num (n : Nat)
  | obj (fields : List (String × Json))
deriving Repr

/-- `json.dump` of the `headword_entry_count` dict, in insertion order. -/
def encode_counts (d : List (String × Nat)) : Json :=
  .obj (d.map (fun p => (p.1, .num p.2)))

/-- `json.dump(self._data.__dict__)`: the three dataclass fields, in
declaration order. -/
def encode_state_data (d : StateData) : Json :=
  .obj [("headword_index", .num d.headword_index),
        ("entry_index", .num d.entry_index),
        ("headword_entry_count", encode_counts d.headword_entry_count)]

/-- Reading the fields of a JSON object back as `Dict[str, int]` bindings;
any non-numeric value is a malformed checkpoint. -/
def decode_count_fields : List (String × Json) → Option (List (String × Nat))
  | [] => some []
  | (k, .num n) :: rest =>
    match decode_count_fields rest with
    | some d => some ((k, n) :: d)
    | none => none
  | (_, .obj _) :: _ => none

/-- Reading a JSON object back as a `Dict[str, int]`. -/
def decode_counts : Json → Option (List (String × Nat))
  | .obj fields => decode_count_fields fields
  | .num _ => none

/-- First field of a JSON object with the given key (Python dicts never hold
duplicate keys, so the first is the only one). -/
def json_field (fields : List (String × Json)) (k : String) : Option Json :=
  match fields.find? (fun p => p.1 == k) with
  | some p => some p.2
  | none => none

/-- `_StateData(**json.load(f))`: keyword expansion of the parsed object.
A key outside the three dataclass fields raises `TypeError` (malformed,
`none`); a missing key falls back to the dataclass default (`0`, `0`, empty
map); a field of the wrong shape is malformed. -/
def decode_state_data : Json → Option StateData
  | .num _ => none
  | .obj fields =>
    if fields.all (fun p =>
        p.1 == "headword_index" || p.1 == "entry_index" ||
        p.1 == "headword_entry_count") then
      let hIdx : Option Nat :=
        match json_field fields "headword_index" with
        | none => some 0
        | some (.num n) => some n
        | some (.obj _) => none
      let eIdx : Option Nat :=
        match json_field fields "entry_index" with
        | none => some 0
        | some (.num n) => some n
        | some (.obj _) => none
      let cnts : Option (List (String × Nat)) :=
        match json_field fields "headword_entry_count" with
        | none => some []
        | some j => decode_counts j
      match hIdx, eIdx, cnts with
      | some a, some b, some c => some ⟨a, b, c⟩
      | _, _, _ => none
    else none

/-- `State._save_history` acting on the checkpoint file (`none` = file
absent).  `json.dump` can fail with `IOError`; the source catches it and
logs, so the operation is total: on failure (`ok = false`) the old file
content simply remains. -/
def save_history (ok : Bool) (file : Option Json) (d : StateData) : Option Json :=
  if ok then some (encode_state_data d) else file

/-- `State._load_history`: missing file keeps the dataclass defaults; a
malformed file is caught, logged, and also leaves the defaults in place. -/
def load_history (file : Option Json) : StateData :=
  match file with
  | none => StateData.fresh
  | some j => (decode_state_data j).getD StateData.fresh

/-- `State.commit_entry` together with its final `_save_history`, threading
the checkpoint file; `ok = false` models the write failing with `IOError`
(caught inside `_save_history`). -/
def commit_entry_persist (O : Oracle) (hws : List String) (ok : Bool)
    (s : St) (file : Option Json) : Option (St × Option Json) :=
  match commit_entry O hws s with
  | none => none
  | some s' => some (s', save_history ok file s'.data)

/-- `State.undo` together with its conditional `_save_history` (the no-op
branches return before saving). -/
def undo_persist (O : Oracle) (hws : List String) (ok : Bool)
    (s : St) (file : Option Json) : Option (St × Option Json) :=
  match undo_core O hws s with
  | none => none
  | some (s', true) => some (s', save_history ok file s'.data)
  | some (s', false) => some (s', file)

/-- `VocabBank.delete_entry` (pipeline/curate/vocab_bank.py) at the level of
stored entry ids: remove the directory for `entry_id` when it exists;
deleting a missing entry only logs a warning. -/
def bank_delete (bank : List String) (entry_id : String) : List String :=
  bank.filter (fun i => i ≠ entry_id)

/-- `UndoCommand.execute` (components/vocab_selector/commands.py):
`state.undo()`, then delete from the bank the entry the cursor now points
at.  `none` models an exception from `undo` or `current_entry`. -/
def undo_command (O : Oracle) (hws : List String) (s : St) (bank : List String) :
    Option (St × List String) :=
  match undo_core O hws s with
  | none => none
  | some (s', _) =>
    match current_entry O hws s' with
    | none => none
    | some (e, s'') => some (s'', bank_delete bank e.id)

/-- `State._current_word`, total via a default; every use in the source is
guarded by `0 <= headword_index < len(headwords)` (otherwise the source
raises `CurationError`, which the `Option`-valued operations model). -/
def current_word (hws : List String) (s : St) : String :=
  hws.getD s.data.headword_index ""

/-- A headword whose lookup yields a term with at least one entry — the only
kind `_get_term_for_headword` ever returns from a cache miss. -/
def valid_word (O : Oracle) (w : String) : Bool :=
  match O w with
  | .ok (some t) => !t.entries.isEmpty
  | _ => false

/-- The entry count the oracle reports for a word. -/
def oracle_count (O : Oracle) (w : String) : Nat :=
  match O w with
  | .ok (some t) => t.entries.length
  | _ => 0

/-- Guarantees `mw_api.look_up` gives about any term it returns: it is
constructed as `DictionaryTerm(search_word, matching_entries)` with
`matching_entries` nonempty. -/
def OracleWF (O : Oracle) : Prop :=
  ∀ w t, O w = .ok (some t) → t.headword = w ∧ t.entries ≠ []

/-- Every cached term came from the oracle (the cache is only written by
`_get_term_for_headword`, from a successful lookup). -/
def CacheConsistent (O : Oracle) (s : St) : Prop :=
  ∀ w t, s.cache w = some t → O w = .ok (some t)

/-- A cached word has its entry count recorded (both maps are written
together by `_get_term_for_headword`). -/
def CacheCounted (s : St) : Prop :=
  ∀ w t, s.cache w = some t →
    dict_get s.data.headword_entry_count w = some t.entries.length

/-- Every recorded count is the oracle count of a valid word. -/
def CountsConsistent (O : Oracle) (s : St) : Prop :=
  ∀ w n, dict_get s.data.headword_entry_count w = some n →
    valid_word O w = true ∧ n = oracle_count O w

/-- The three session-map consistency properties together (they mention only
the count map and the cache, which of all the fields are exactly what
`_get_term_for_headword` can change). -/
def StCons (O : Oracle) (s : St) : Prop :=
  CacheConsistent O s ∧ CacheCounted s ∧ CountsConsistent O s

/-- What `__init__` can assume about the `_StateData` it starts from: the
dataclass defaults, or data written by `_save_history` from an earlier
session against the same oracle.  The count map is oracle-consistent, the
entry index respects the recorded count of the current headword, and either
the entry index is 0 or a valid current headword has a recorded count. -/
def DataInv (O : Oracle) (hws : List String) (d : StateData) : Prop :=
  (∀ w n, dict_get d.headword_entry_count w = some n →
    valid_word O w = true ∧ n = oracle_count O w) ∧
  (∀ n, dict_get d.headword_entry_count (hws.getD d.headword_index "") = some n →
    d.entry_index ≤ n) ∧
  (d.entry_index = 0 ∨
    (valid_word O (hws.getD d.headword_index "") = true →
      dict_get d.headword_entry_count (hws.getD d.headword_index "") ≠ none))

/-- The inductive invariant of the curation cursor: index in range, both
session maps consistent with the oracle, a valid current word always has a
recorded count, and `entry_index` never exceeds that count.  (Equality
`entry_index = count` is reachable: committing the last entry of the final
headword with entries leaves the index one past the end.) -/
structure Inv (O : Oracle) (hws : List String) (s : St) : Prop where
  hlt : s.data.headword_index < hws.length
  cacheOk : CacheConsistent O s
  cacheCounted : CacheCounted s
  countsOk : CountsConsistent O s
  curCounted : valid_word O (current_word hws s) = true →
    dict_get s.data.headword_entry_count (current_word hws s) ≠ none
  entryOk : ∀ n,
    dict_get s.data.headword_entry_count (current_word hws s) = some n →
    s.data.entry_index ≤ n

/-- States a curation session can be in: the self-corrected fresh or
restored startup states, plus anything the driver loop produces.  The driver
(`handle_command_input` callers) resolves and displays `current_entry`
before dispatching a command, so `commit_entry` and `undo` always run on the
state `current_entry` returned. -/
inductive Reachable (O : Oracle) (hws : List String) : St → Prop where
  | fresh : ∀ s, init_state O hws StateData.fresh = some s → Reachable O hws s
  | restore : ∀ r s, Reachable O hws r →
      init_state O hws r.data = some s → Reachable O hws s
  | commit : ∀ s e s₁ s', Reachable O hws s →
      current_entry O hws s = some (e, s₁) →
      commit_entry O hws s₁ = some s' → Reachable O hws s'
  | undoStep : ∀ s e s₁ s' b, Reachable O hws s →
      current_entry O hws s = some (e, s₁) →
      undo_core O hws s₁ = some (s', b) → Reachable O hws s'

/-- Postcondition of a successful `_advance_headword` walk: the cursor rests
at entry 0 of an in-range headword whose term resolves (and is now cached
with its count recorded), strictly beyond the starting index in the walk
direction, and every index strictly between start and stop was skipped
because its word has no entries. -/
def AdvanceSome (O : Oracle) (hws : List String) (pos : Bool) (s s' : St) : Prop :=
  s'.data.entry_index = 0 ∧
  s'.data.headword_index < hws.length ∧
  valid_word O (current_word hws s') = true ∧
  (∃ t, s'.cache (current_word hws s') = some t ∧
    O (current_word hws s') = .ok (some t)) ∧
  dict_get s'.data.headword_entry_count (current_word hws s') =
    some (oracle_count O (current_word hws s')) ∧
  (pos = true → s.data.headword_index < s'.data.headword_index) ∧
  (pos = false → s'.data.headword_index < s.data.headword_index) ∧
  (∀ i, pos = true → s.data.headword_index < i → i < s'.data.headword_index →
    valid_word O (hws.getD i "") = false) ∧
  (∀ i, pos = false → s'.data.headword_index < i → i < s.data.headword_index →
    valid_word O (hws.getD i "") = false)

/-- Postcondition of a failed `_advance_headword` walk: either the very
first step was already out of range and the state is untouched, or the walk
moved all the way to the list boundary (mutating the indices, resetting
`entry_index` to 0, but leaving both session maps unchanged since every
visited lookup failed); in both cases every index strictly beyond the start
in the walk direction holds a word without entries. -/
def AdvanceFail (O : Oracle) (hws : List String) (pos : Bool) (s s' : St) : Prop :=
  (s' = s ∧ (pos = true → hws.length ≤ s.data.headword_index + 1) ∧
    (pos = false → s.data.headword_index = 0 ∨
      hws.length ≤ s.data.headword_index)) ∨
  (s'.data.entry_index = 0 ∧
   s'.data.headword_entry_count = s.data.headword_entry_count ∧
   s'.cache = s.cache ∧
   (pos = true → s'.data.headword_index + 1 = hws.length ∧
     s.data.headword_index < s'.data.headword_index) ∧
   (pos = false → s'.data.headword_index = 0 ∧
     s'.data.headword_index < s.data.headword_index))

/-- In both outcomes of a failed walk, every index strictly beyond the start
in the walk direction holds a word whose lookup yields no entries. -/
def AdvanceFailSkips (O : Oracle) (hws : List String) (pos : Bool) (s : St) : Prop :=
  (pos = true → ∀ i, s.data.headword_index < i → i < hws.length →
    valid_word O (hws.getD i "") = false) ∧
  (pos = false → s.data.headword_index ≤ hws.length → ∀ i,
    i < s.data.headword_index → valid_word O (hws.getD i "") = false)

theorem dict_get_set (d : List (String × Nat)) (k k' : String) (v : Nat) :
    dict_get (dict_set d k v) k' = if k' = k then some v else dict_get d k' := by
  induction d with
  | nil =>
    by_cases h : k' = k
    · simp [dict_set, dict_get, h]
    · have h2 : ¬k = k' := fun hh => h hh.symm
      simp [dict_set, dict_get, h, h2]
  | cons a d ih =>
    obtain ⟨a1, a2⟩ := a
    by_cases hak : a1 = k
    · subst hak
      by_cases h : k' = a1
      · subst h
        simp [dict_set, dict_get]
      · have h2 : ¬a1 = k' := fun hh => h hh.symm
        simp [dict_set, dict_get, h, h2]
    · by_cases h' : a1 = k'
      · subst h'
        simp [dict_set, dict_get, hak, fun hh : a1 = k => hak hh]
      · simp [dict_set, dict_get, hak, h', ih]

theorem get_term_spec (O : Oracle) (w : String) (counts : List (String × Nat))
    (cache : String → Option DictionaryTerm) :
    (∃ t, cache w = some t ∧
      get_term_for_headword O w counts cache = ⟨some t, counts, cache, false⟩) ∨
    (cache w = none ∧ ∃ t, O w = .ok (some t) ∧ t.entries.isEmpty = false ∧
      get_term_for_headword O w counts cache =
        ⟨some t, dict_set counts w t.entries.length,
         fun w' => if w' = w then some t else cache w', true⟩) ∨
    (cache w = none ∧
      get_term_for_headword O w counts cache = ⟨none, counts, cache, true⟩ ∧
      valid_word O w = false) := by
  unfold get_term_for_headword
  cases hc : cache w with
  | some t => exact Or.inl ⟨t, rfl, rfl⟩
  | none =>
    cases ho : O w with
    | error e =>
      refine Or.inr (Or.inr ⟨rfl, rfl, ?_⟩)
      simp [valid_word, ho]
    | ok oterm =>
      cases oterm with
      | none =>
        refine Or.inr (Or.inr ⟨rfl, rfl, ?_⟩)
        simp [valid_word, ho]
      | some t =>
        by_cases he : t.entries.isEmpty
        · refine Or.inr (Or.inr ⟨rfl, ?_, ?_⟩)
          · simp [he]
          · simp [valid_word, ho, he]
        · refine Or.inr (Or.inl ⟨rfl, t, rfl, by simpa using he, ?_⟩)
          simp [he]

theorem get_term_none (O : Oracle) (w : String) (counts : List (String × Nat))
    (cache : String → Option DictionaryTerm)
    (h : (get_term_for_headword O w counts cache).term = none) :
    get_term_for_headword O w counts cache = ⟨none, counts, cache, true⟩ ∧
    cache w = none ∧ valid_word O w = false := by
  rcases get_term_spec O w counts cache with ⟨t, _, he⟩ | ⟨hc, t, _, _, he⟩ | ⟨hc, he, hv⟩
  · rw [he] at h; exact absurd h (by simp)
  · rw [he] at h; exact absurd h (by simp)
  · exact ⟨he, hc, hv⟩

theorem get_term_some (O : Oracle) (w : String) (counts : List (String × Nat))
    (cache : String → Option DictionaryTerm) (t : DictionaryTerm)
    (h : (get_term_for_headword O w counts cache).term = some t) :
    (cache w = some t ∨
      (cache w = none ∧ O w = .ok (some t) ∧ t.entries.isEmpty = false)) ∧
    (get_term_for_headword O w counts cache).cache w = some t ∧
    (∀ w', w' ≠ w →
      (get_term_for_headword O w counts cache).cache w' = cache w' ∧
      dict_get (get_term_for_headword O w counts cache).counts w' =
        dict_get counts w') ∧
    (get_term_for_headword O w counts cache).consulted = (cache w).isNone := by
  rcases get_term_spec O w counts cache with ⟨t', hc, he⟩ | ⟨hc, t', ho, hne, he⟩ |
    ⟨hc, he, hv⟩
  · rw [he] at h ⊢
    simp only [LookupStep.term] at h
    obtain rfl : t' = t := by simpa using h
    exact ⟨Or.inl hc, hc, fun w' _ => ⟨rfl, rfl⟩, by simp [hc]⟩
  · rw [he] at h ⊢
    simp only [LookupStep.term] at h
    obtain rfl : t' = t := by simpa using h
    refine ⟨Or.inr ⟨hc, ho, hne⟩, by simp, fun w' hw' => ⟨by simp [hw'], ?_⟩, by simp [hc]⟩
    simp [dict_get_set, hw']
  · rw [he] at h
    exact absurd h (by simp)

theorem get_term_some_counts (O : Oracle) (w : String)
    (counts : List (String × Nat)) (cache : String → Option DictionaryTerm)
    (t : DictionaryTerm)
    (hCC : ∀ t', cache w = some t' → dict_get counts w = some t'.entries.length)
    (h : (get_term_for_headword O w counts cache).term = some t) :
    dict_get (get_term_for_headword O w counts cache).counts w =
      some t.entries.length := by
  rcases get_term_spec O w counts cache with ⟨t', hc, he⟩ | ⟨hc, t', ho, hne, he⟩ |
    ⟨hc, he, hv⟩
  · rw [he] at h ⊢
    have hcc := hCC t' hc
    obtain rfl : t' = t := by simpa using h
    simpa using hcc
  · rw [he] at h ⊢
    obtain rfl : t' = t := by simpa using h
    simp [dict_get_set]
  · rw [he] at h
    exact absurd h (by simp)

theorem get_term_valid (O : Oracle) (w : String) (counts : List (String × Nat))
    (cache : String → Option DictionaryTerm) (t : DictionaryTerm)
    (hWF : OracleWF O)
    (hCO : ∀ t', cache w = some t' → O w = .ok (some t'))
    (h : (get_term_for_headword O w counts cache).term = some t) :
    O w = .ok (some t) ∧ valid_word O w = true ∧ t.headword = w ∧
    oracle_count O w = t.entries.length := by
  have hmem := (get_term_some O w counts cache t h).1
  have ho : O w = .ok (some t) := by
    rcases hmem with hc | ⟨_, ho, _⟩
    · exact hCO t hc
    · exact ho
  have hne := (hWF w t ho).2
  refine ⟨ho, ?_, (hWF w t ho).1, ?_⟩
  · simp [valid_word, ho, List.isEmpty_eq_true, hne]
  · simp [oracle_count, ho]

theorem get_term_of_valid (O : Oracle) (w : String)
    (counts : List (String × Nat)) (cache : String → Option DictionaryTerm)
    (hv : valid_word O w = true) :
    ∃ t, (get_term_for_headword O w counts cache).term = some t := by
  rcases get_term_spec O w counts cache with ⟨t, _, he⟩ | ⟨_, t, _, _, he⟩ |
    ⟨_, _, hv'⟩
  · exact ⟨t, by rw [he]⟩
  · exact ⟨t, by rw [he]⟩
  · rw [hv] at hv'; exact absurd hv' (by simp)

theorem get_term_preserves (O : Oracle) (w : String)
    (counts : List (String × Nat)) (cache : String → Option DictionaryTerm)
    (hWF : OracleWF O)
    (h1 : ∀ w' t, cache w' = some t → O w' = .ok (some t))
    (h2 : ∀ w' t, cache w' = some t → dict_get counts w' = some t.entries.length)
    (h3 : ∀ w' n, dict_get counts w' = some n →
      valid_word O w' = true ∧ n = oracle_count O w') :
    (∀ w' t, (get_term_for_headword O w counts cache).cache w' = some t →
      O w' = .ok (some t)) ∧
    (∀ w' t, (get_term_for_headword O w counts cache).cache w' = some t →
      dict_get (get_term_for_headword O w counts cache).counts w' =
        some t.entries.length) ∧
    (∀ w' n, dict_get (get_term_for_headword O w counts cache).counts w' = some n →
      valid_word O w' = true ∧ n = oracle_count O w') := by
  rcases get_term_spec O w counts cache with ⟨t, hc, he⟩ | ⟨hc, t, ho, hne, he⟩ |
    ⟨hc, he, hv⟩
  · rw [he]; exact ⟨h1, h2, h3⟩
  · rw [he]
    refine ⟨?_, ?_, ?_⟩
    · intro w' t' hc'
      by_cases hw : w' = w
      · subst hw
        obtain rfl : t = t' := by simpa using hc'
        exact ho
      · have hc'' : cache w' = some t' := by simpa [hw] using hc'
        exact h1 w' t' hc''
    · intro w' t' hc'
      by_cases hw : w' = w
      · subst hw
        obtain rfl : t = t' := by simpa using hc'
        simp [dict_get_set]
      · have hc'' : cache w' = some t' := by simpa [hw] using hc'
        simp only [dict_get_set, if_neg hw]
        exact h2 w' t' hc''
    · intro w' n hn
      by_cases hw : w' = w
      · subst hw
        rw [dict_get_set, if_pos rfl] at hn
        obtain rfl : t.entries.length = n := by simpa using hn
        constructor
        · simp [valid_word, ho, hne]
        · simp [oracle_count, ho]
      · rw [dict_get_set, if_neg hw] at hn
        exact h3 w' n hn
  · rw [he]; exact ⟨h1, h2, h3⟩

theorem advance_spec (O : Oracle) (hws : List String) (pos : Bool)
    (hWF : OracleWF O) :
    ∀ s, StCons O s → ∀ b s', advance_headword O hws pos s = (b, s') →
      StCons O s' ∧ (b = true → AdvanceSome O hws pos s s') ∧
      (b = false → AdvanceFail O hws pos s s' ∧ AdvanceFailSkips O hws pos s) := by
  intro s
  induction s using advance_headword.induct O hws pos with
  | case1 x hrange t hterm =>
    intro hcons b s' heq
    obtain ⟨hc1, hc2, hc3⟩ := hcons
    have hterm' : (get_term_for_headword O
        (hws.getD (step_index pos x.data.headword_index).toNat "")
        x.data.headword_entry_count x.cache).term = some t := hterm
    rw [advance_headword, dif_pos hrange] at heq
    simp only [hterm'] at heq
    rw [Prod.mk.injEq] at heq
    obtain ⟨hb, hs⟩ := heq
    subst hb
    subst hs
    have hpre := get_term_preserves O
      (hws.getD (step_index pos x.data.headword_index).toNat "")
      x.data.headword_entry_count x.cache hWF
      (fun w' t' hc => hc1 w' t' hc) (fun w' t' hc => hc2 w' t' hc)
      (fun w' n hn => hc3 w' n hn)
    obtain ⟨ho, hv, hhw, hoc⟩ := get_term_valid O
      (hws.getD (step_index pos x.data.headword_index).toNat "")
      x.data.headword_entry_count x.cache t hWF
      (fun t' hc => hc1 _ t' hc) hterm'
    have hsome := get_term_some O
      (hws.getD (step_index pos x.data.headword_index).toNat "")
      x.data.headword_entry_count x.cache t hterm'
    have hcnt := get_term_some_counts O
      (hws.getD (step_index pos x.data.headword_index).toNat "")
      x.data.headword_entry_count x.cache t
      (fun t' hc => hc2 _ t' hc) hterm'
    obtain ⟨hr1, hr2⟩ := hrange
    refine ⟨⟨hpre.1, hpre.2.1, hpre.2.2⟩, ?_, ?_⟩
    · intro _
      refine ⟨rfl, ?_, hv, ⟨t, hsome.2.1, ho⟩, ?_, ?_, ?_, ?_, ?_⟩
      · show (step_index pos x.data.headword_index).toNat < hws.length
        omega
      · have hoc' : oracle_count O
            (hws.getD (step_index pos x.data.headword_index).toNat "") =
            t.entries.length := hoc
        rw [show current_word hws
            ⟨⟨(step_index pos x.data.headword_index).toNat, 0,
              (get_term_for_headword O
                (hws.getD (step_index pos x.data.headword_index).toNat "")
                x.data.headword_entry_count x.cache).counts⟩,
              (get_term_for_headword O
                (hws.getD (step_index pos x.data.headword_index).toNat "")
                x.data.headword_entry_count x.cache).cache⟩ =
            hws.getD (step_index pos x.data.headword_index).toNat "" from rfl]
        rw [hoc']
        exact hcnt
      · intro hp
        subst hp
        simp only [step_index, Bool.cond_true]
        omega
      · intro hp
        subst hp
        simp only [step_index, Bool.cond_false] at hr1 ⊢
        omega
      · intro j hp hj1 hj2
        exfalso
        subst hp
        simp only [step_index, Bool.cond_true] at hj2
        omega
      · intro j hp hj1 hj2
        exfalso
        subst hp
        simp only [step_index, Bool.cond_false] at hj1 hr1
        omega
    · intro hb
      cases hb
  | case2 x hrange hterm ih =>
    intro hcons b s' heq
    have hterm' : (get_term_for_headword O
        (hws.getD (step_index pos x.data.headword_index).toNat "")
        x.data.headword_entry_count x.cache).term = none := hterm
    obtain ⟨hgt_eq, hgc, hgv⟩ := get_term_none O
      (hws.getD (step_index pos x.data.headword_index).toNat "")
      x.data.headword_entry_count x.cache hterm'
    rw [advance_headword, dif_pos hrange] at heq
    simp only [hterm', hgt_eq] at heq
    obtain ⟨hr1, hr2⟩ := hrange
    have hconsN : StCons O ⟨⟨(step_index pos x.data.headword_index).toNat, 0,
        x.data.headword_entry_count⟩, x.cache⟩ :=
      ⟨hcons.1, hcons.2.1, hcons.2.2⟩
    simp only [hgt_eq] at ih
    have hih := ih hconsN b s' heq
    obtain ⟨hcS, hsome', hfail'⟩ := hih
    refine ⟨hcS, ?_, ?_⟩
    · intro hb
      obtain ⟨e0, elen, ev, ecache, ecnt, d1, d2, bet1, bet2⟩ := hsome' hb
      refine ⟨e0, elen, ev, ecache, ecnt, ?_, ?_, ?_, ?_⟩
      · intro hp
        have hd := d1 hp
        subst hp
        simp only [step_index, Bool.cond_true] at hd
        omega
      · intro hp
        have hd := d2 hp
        subst hp
        simp only [step_index, Bool.cond_false] at hd hr1
        omega
      · intro j hp hj1 hj2
        subst hp
        simp only [step_index, Bool.cond_true] at hr1 hr2 hgv
        by_cases hji : j = x.data.headword_index + 1
        · subst hji
          have hi : ((x.data.headword_index : Int) + 1).toNat =
              x.data.headword_index + 1 := by omega
          rw [hi] at hgv
          exact hgv
        · refine bet1 j rfl ?_ hj2
          simp only [step_index, Bool.cond_true]
          omega
      · intro j hp hj1 hj2
        subst hp
        simp only [step_index, Bool.cond_false] at hr1 hr2 hgv
        by_cases hji : j + 1 = x.data.headword_index
        · have hi : ((x.data.headword_index : Int) - 1).toNat = j := by omega
          rw [hi] at hgv
          exact hgv
        · refine bet2 j rfl hj1 ?_
          simp only [step_index, Bool.cond_false]
          omega
    · intro hb
      obtain ⟨hAF, hskips⟩ := hfail' hb
      constructor
      · rcases hAF with ⟨hse, hb1, hb2⟩ | ⟨e0, ecnt, ecache, hb1, hb2⟩
        · right
          subst hse
          refine ⟨rfl, rfl, rfl, ?_, ?_⟩
          · intro hp
            have h1 := hb1 hp
            subst hp
            simp only [step_index, Bool.cond_true] at h1 hr2 ⊢
            constructor
            · omega
            · omega
          · intro hp
            have h2 := hb2 hp
            subst hp
            simp only [step_index, Bool.cond_false] at h2 hr2 hr1 ⊢
            constructor
            · omega
            · omega
        · right
          refine ⟨e0, ecnt, ecache, ?_, ?_⟩
          · intro hp
            have h1 := hb1 hp
            subst hp
            simp only [step_index, Bool.cond_true] at h1 ⊢
            constructor
            · exact h1.1
            · omega
          · intro hp
            have h2 := hb2 hp
            subst hp
            simp only [step_index, Bool.cond_false] at h2 hr1 ⊢
            constructor
            · exact h2.1
            · omega
      · obtain ⟨s1, s2⟩ := hskips
        constructor
        · intro hp j hj1 hj2
          subst hp
          simp only [step_index, Bool.cond_true] at s1 hr1 hr2 hgv
          by_cases hji : j = x.data.headword_index + 1
          · subst hji
            have hi : ((x.data.headword_index : Int) + 1).toNat =
                x.data.headword_index + 1 := by omega
            rw [hi] at hgv
            exact hgv
          · refine s1 trivial j ?_ hj2
            omega
        · intro hp hle j hj
          subst hp
          simp only [step_index, Bool.cond_false] at s2 hr1 hr2 hgv
          by_cases hji : j + 1 = x.data.headword_index
          · have hi : ((x.data.headword_index : Int) - 1).toNat = j := by omega
            rw [hi] at hgv
            exact hgv
          · refine s2 trivial ?_ j ?_
            · omega
            · omega
  | case3 x hrange =>
    intro hcons b s' heq
    rw [advance_headword, dif_neg hrange] at heq
    rw [Prod.mk.injEq] at heq
    obtain ⟨hb, hs⟩ := heq
    subst hb
    subst hs
    refine ⟨hcons, ?_, ?_⟩
    · intro h
      cases h
    · intro _
      constructor
      · left
        refine ⟨rfl, ?_, ?_⟩
        · intro hp
          subst hp
          simp only [step_index, Bool.cond_true] at hrange
          rcases not_and_or.mp hrange with h | h <;> omega
        · intro hp
          subst hp
          simp only [step_index, Bool.cond_false] at hrange
          rcases not_and_or.mp hrange with h | h
          · left; omega
          · right; omega
      · constructor
        · intro hp j hj1 hj2
          exfalso
          subst hp
          simp only [step_index, Bool.cond_true] at hrange
          rcases not_and_or.mp hrange with h | h <;> omega
        · intro hp hle j hj
          exfalso
          subst hp
          simp only [step_index, Bool.cond_false] at hrange
          rcases not_and_or.mp hrange with h | h <;> omega

theorem getD_of_getElem? (hws : List String) (n : Nat) (w : String)
    (h : hws[n]? = some w) : hws.getD n "" = w := by
  rw [List.getD_eq_getElem?_getD, h]
  rfl

theorem lt_length_of_getElem? (hws : List String) (n : Nat) (w : String)
    (h : hws[n]? = some w) : n < hws.length := by
  by_contra hn
  rw [List.getElem?_eq_none (by omega)] at h
  cases h

theorem getElem?_eq_some_getD (hws : List String) (n : Nat)
    (h : n < hws.length) : hws[n]? = some (hws.getD n "") := by
  rw [List.getElem?_eq_getElem h, List.getD_eq_getElem?_getD,
    List.getElem?_eq_getElem h]
  rfl

theorem entry_lt_of_getElem? {l : List DictionaryEntry} {n : Nat}
    {e : DictionaryEntry} (h : l[n]? = some e) : n < l.length := by
  by_contra hn
  rw [List.getElem?_eq_none (by omega)] at h
  cases h

theorem init_spec (O : Oracle) (hws : List String) (d : StateData) (s' : St)
    (hWF : OracleWF O) (hd : DataInv O hws d)
    (h : init_state O hws d = some s') :
    Inv O hws s' ∧ valid_word O (current_word hws s') = true := by
  obtain ⟨hd1, hd2, hd3⟩ := hd
  simp only [init_state, ensure_valid_state] at h
  cases hidx : hws[d.headword_index]? with
  | none => simp [hidx] at h
  | some w =>
    simp only [hidx] at h
    have hgd : hws.getD d.headword_index "" = w := getD_of_getElem? hws _ w hidx
    have hlt0 : d.headword_index < hws.length := lt_length_of_getElem? hws _ w hidx
    rcases get_term_spec O w d.headword_entry_count (fun _ => none) with
      ⟨t, hc, hgt⟩ | ⟨_, t, ho, hne, hgt⟩ | ⟨_, hgt, hv⟩
    · cases hc
    · simp only [hgt] at h
      obtain rfl : (⟨⟨d.headword_index, d.entry_index,
          dict_set d.headword_entry_count w t.entries.length⟩,
          fun w' => if w' = w then some t else (fun _ => none) w'⟩ : St) = s' := by
        simpa using h
      have hvw : valid_word O w = true := by
        simp [valid_word, ho, hne]
      have hoc : oracle_count O w = t.entries.length := by
        simp [oracle_count, ho]
      have hcur : current_word hws
          ⟨⟨d.headword_index, d.entry_index,
            dict_set d.headword_entry_count w t.entries.length⟩,
            fun w' => if w' = w then some t else (fun _ => none) w'⟩ = w := by
        simpa [current_word] using hgd
      refine ⟨⟨hlt0, ?_, ?_, ?_, ?_, ?_⟩, ?_⟩
      · intro w' t' hc'
        by_cases hw : w' = w
        · subst hw
          obtain rfl : t = t' := by simpa using hc'
          exact ho
        · simp [hw] at hc'
      · intro w' t' hc'
        by_cases hw : w' = w
        · subst hw
          obtain rfl : t = t' := by simpa using hc'
          simp [dict_get_set]
        · simp [hw] at hc'
      · intro w' n hn
        simp only [] at hn
        rw [dict_get_set] at hn
        by_cases hw : w' = w
        · rw [if_pos hw] at hn
          obtain rfl : t.entries.length = n := by simpa using hn
          subst hw
          exact ⟨hvw, hoc.symm⟩
        · rw [if_neg hw] at hn
          exact hd1 w' n hn
      · intro _
        rw [hcur]
        simp only []
        rw [dict_get_set, if_pos rfl]
        simp
      · intro n hn
        rw [hcur] at hn
        simp only [] at hn
        rw [dict_get_set, if_pos rfl] at hn
        obtain rfl : t.entries.length = n := by simpa using hn
        rcases hd3 with h0 | hcnt
        · simp [h0]
        · rw [hgd] at hcnt
          obtain ⟨m, hm⟩ := Option.ne_none_iff_exists'.mp (hcnt hvw)
          obtain ⟨_, hmo⟩ := hd1 w m hm
          have hle := hd2 (n := m) (by rw [hgd]; exact hm)
          show d.entry_index ≤ t.entries.length
          rw [hoc] at hmo
          omega
      · rw [hcur]
        exact hvw
    · simp only [hgt] at h
      cases hadv : advance_headword O hws true
          ⟨⟨d.headword_index, d.entry_index, d.headword_entry_count⟩,
            fun _ => none⟩ with
      | mk b s₂ =>
        rw [hadv] at h
        cases b with
        | false => simp at h
        | true =>
          obtain rfl : s₂ = s' := by simpa using h
          have hcons0 : StCons O ⟨⟨d.headword_index, d.entry_index,
              d.headword_entry_count⟩, fun _ => none⟩ := by
            refine ⟨?_, ?_, ?_⟩
            · intro w' t' hc'
              cases hc'
            · intro w' t' hc'
              cases hc'
            · intro w' n hn
              exact hd1 w' n hn
          obtain ⟨hcS, hsome, _⟩ :=
            advance_spec O hws true hWF _ hcons0 true s₂ hadv
          obtain ⟨e0, elen, ev, _, ecnt, _, _, _, _⟩ := hsome rfl
          refine ⟨⟨elen, hcS.1, hcS.2.1, hcS.2.2, ?_, ?_⟩, ev⟩
          · intro _
            rw [ecnt]
            simp
          · intro n hn
            rw [e0]
            omega

theorem inv_data (O : Oracle) (hws : List String) (s : St)
    (hinv : Inv O hws s) : DataInv O hws s.data := by
  refine ⟨hinv.countsOk, hinv.entryOk, Or.inr ?_⟩
  exact hinv.curCounted

theorem current_term_spec (O : Oracle) (hws : List String) (s : St)
    (t : DictionaryTerm) (s₁ : St) (hWF : OracleWF O) (hinv : Inv O hws s)
    (h : current_term O hws s = some (t, s₁)) :
    Inv O hws s₁ ∧
    O (current_word hws s₁) = .ok (some t) ∧
    s₁.cache (current_word hws s₁) = some t ∧
    dict_get s₁.data.headword_entry_count (current_word hws s₁) =
      some t.entries.length ∧
    valid_word O (current_word hws s₁) = true ∧
    (s₁.data.headword_index = s.data.headword_index ∧
      s₁.data.entry_index = s.data.entry_index ∨ s₁.data.entry_index = 0) := by
  obtain ⟨hlt, hc1, hc2, hc3, hcur, hent⟩ := hinv
  cases hidx : hws[s.data.headword_index]? with
  | none => simp [current_term, hidx] at h
  | some w =>
    simp only [current_term, hidx] at h
    have hgd : hws.getD s.data.headword_index "" = w := getD_of_getElem? hws _ w hidx
    cases hterm : (get_term_for_headword O w s.data.headword_entry_count
        s.cache).term with
    | some t' =>
      rw [hterm] at h
      simp only [Option.some.injEq, Prod.mk.injEq] at h
      obtain ⟨ho, hv, hhw, hoc⟩ := get_term_valid O w
        s.data.headword_entry_count s.cache t' hWF
        (fun t'' hc => hc1 w t'' hc) hterm
      have hpre := get_term_preserves O w s.data.headword_entry_count s.cache
        hWF (fun w' t'' hc => hc1 w' t'' hc) (fun w' t'' hc => hc2 w' t'' hc)
        (fun w' n hn => hc3 w' n hn)
      have hsome := get_term_some O w s.data.headword_entry_count s.cache t' hterm
      have hcnt := get_term_some_counts O w s.data.headword_entry_count s.cache t'
        (fun t'' hc => hc2 w t'' hc) hterm
      have hcws : current_word hws s = w := by
        simpa [current_word] using hgd
      obtain ⟨rfl, rfl⟩ := h
      have hcurw : current_word hws
          ⟨⟨s.data.headword_index, s.data.entry_index,
            (get_term_for_headword O w s.data.headword_entry_count
              s.cache).counts⟩,
            (get_term_for_headword O w s.data.headword_entry_count
              s.cache).cache⟩ = w := by
        simpa [current_word] using hgd
      refine ⟨⟨hlt, hpre.1, hpre.2.1, hpre.2.2, ?_, ?_⟩, ?_, ?_, ?_, ?_, ?_⟩
      · intro _
        rw [hcurw]
        show dict_get (get_term_for_headword O w s.data.headword_entry_count
          s.cache).counts w ≠ none
        rw [hcnt]
        simp
      · intro n hn
        rw [hcurw] at hn
        show s.data.entry_index ≤ n
        have hn' : dict_get (get_term_for_headword O w
            s.data.headword_entry_count s.cache).counts w = some n := hn
        rw [hcnt] at hn'
        obtain rfl : t'.entries.length = n := by simpa using hn'
        rcases (Option.ne_none_iff_exists'.mp
            (hcur (by rw [hcws]; exact hv))) with ⟨m, hm⟩
        rw [hcws] at hm
        obtain ⟨_, hmo⟩ := hc3 w m hm
        have hle := hent m (by rw [hcws]; exact hm)
        rw [hoc] at hmo
        omega
      · rw [hcurw]; exact ho
      · rw [hcurw]; exact hsome.2.1
      · rw [hcurw]; exact hcnt
      · rw [hcurw]; exact hv
      · left; exact ⟨rfl, rfl⟩
    | none =>
      rw [hterm] at h
      obtain ⟨hgt_eq, hgc, hgv⟩ := get_term_none O w
        s.data.headword_entry_count s.cache hterm
      simp only [hgt_eq] at h
      cases hadv : advance_headword O hws true
          ⟨⟨s.data.headword_index, s.data.entry_index,
            s.data.headword_entry_count⟩, s.cache⟩ with
      | mk b s₂ =>
        rw [hadv] at h
        cases b with
        | false => simp at h
        | true =>
          have hcons0 : StCons O ⟨⟨s.data.headword_index, s.data.entry_index,
              s.data.headword_entry_count⟩, s.cache⟩ := ⟨hc1, hc2, hc3⟩
          obtain ⟨hcS, hsome, _⟩ :=
            advance_spec O hws true hWF _ hcons0 true s₂ hadv
          obtain ⟨e0, elen, ev, ⟨t₂, hct, hot⟩, ecnt, _, _, _, _⟩ := hsome rfl
          cases hidx₂ : hws[s₂.data.headword_index]? with
          | none =>
            rw [List.getElem?_eq_getElem elen] at hidx₂
            cases hidx₂
          | some w₂ =>
            simp only [hidx₂] at h
            have hgd₂ : hws.getD s₂.data.headword_index "" = w₂ :=
              getD_of_getElem? hws _ w₂ hidx₂
            have hct' : s₂.cache w₂ = some t₂ := by
              rw [← hgd₂]; exact hct
            rcases get_term_spec O w₂ s₂.data.headword_entry_count s₂.cache with
              ⟨t₃, hc', hgt'⟩ | ⟨hc', t₃, ho', hne', hgt'⟩ | ⟨hc', hgt', hv'⟩
            · rw [hct'] at hc'
              obtain rfl : t₂ = t₃ := by simpa using hc'
              rw [hgt'] at h
              simp only [Option.some.injEq, Prod.mk.injEq] at h
              obtain ⟨rfl, rfl⟩ := h
              have hs₂eta : (⟨⟨s₂.data.headword_index, s₂.data.entry_index,
                  s₂.data.headword_entry_count⟩, s₂.cache⟩ : St) = s₂ := rfl
              rw [hs₂eta]
              have hcw : current_word hws s₂ = w₂ := by
                simpa [current_word] using hgd₂
              refine ⟨⟨elen, hcS.1, hcS.2.1, hcS.2.2, ?_, ?_⟩, ?_, ?_, ?_, ?_, ?_⟩
              · intro _
                rw [hcw, ← hgd₂]
                rw [show hws.getD s₂.data.headword_index "" =
                  current_word hws s₂ from rfl]
                rw [ecnt]
                simp
              · intro n hn
                rw [e0]
                omega
              · rw [hcw]
                exact hcS.1 w₂ t₂ hct'
              · rw [hcw]
                exact hct'
              · rw [hcw]
                have := hcS.2.1 w₂ t₂ hct'
                exact this
              · rw [hcw, ← hgd₂]
                exact ev
              · right; exact e0
            · exfalso
              rw [hct'] at hc'
              cases hc'
            · exfalso
              rw [hct'] at hc'
              cases hc'

theorem current_entry_spec (O : Oracle) (hws : List String) (s : St)
    (e : DictionaryEntry) (s₁ : St) (hWF : OracleWF O) (hinv : Inv O hws s)
    (h : current_entry O hws s = some (e, s₁)) :
    Inv O hws s₁ ∧ ∃ t, O (current_word hws s₁) = .ok (some t) ∧
      s₁.cache (current_word hws s₁) = some t ∧
      dict_get s₁.data.headword_entry_count (current_word hws s₁) =
        some t.entries.length ∧
      s₁.data.entry_index < t.entries.length ∧
      t.entries[s₁.data.entry_index]? = some e := by
  simp only [current_entry] at h
  cases hct : current_term O hws s with
  | none => rw [hct] at h; cases h
  | some p =>
    obtain ⟨t, s₂⟩ := p
    rw [hct] at h
    obtain ⟨hinv₂, ho, hcache, hcnt, hv, _⟩ :=
      current_term_spec O hws s t s₂ hWF hinv hct
    cases hge : t.entries[s₂.data.entry_index]? with
    | none => simp only [hge] at h; cases h
    | some e' =>
      simp only [hge, Option.some.injEq, Prod.mk.injEq] at h
      obtain ⟨rfl, rfl⟩ := h
      exact ⟨hinv₂, t, ho, hcache, hcnt, entry_lt_of_getElem? hge, hge⟩

theorem commit_spec (O : Oracle) (hws : List String) (s₁ s' : St)
    (hWF : OracleWF O) (hinv : Inv O hws s₁) (t : DictionaryTerm)
    (hcache : s₁.cache (current_word hws s₁) = some t)
    (hlt : s₁.data.entry_index < t.entries.length)
    (h : commit_entry O hws s₁ = some s') : Inv O hws s' := by
  obtain ⟨hlen, hc1, hc2, hc3, hcur, hent⟩ := hinv
  have hidx : hws[s₁.data.headword_index]? = some (current_word hws s₁) :=
    getElem?_eq_some_getD hws _ hlen
  have hhw : t.headword = current_word hws s₁ :=
    (hWF _ t (hc1 _ t hcache)).1
  rcases get_term_spec O (current_word hws s₁)
      s₁.data.headword_entry_count s₁.cache with
    ⟨t', hc', hgt⟩ | ⟨hc', t', ho', hne', hgt⟩ | ⟨hc', hgt, hv'⟩
  rotate_left
  · rw [hcache] at hc'; cases hc'
  · rw [hcache] at hc'; cases hc'
  rw [hcache] at hc'
  obtain rfl : t = t' := by simpa using hc'
  have hcw : dict_get s₁.data.headword_entry_count t.headword =
      some t.entries.length := by
    rw [hhw]; exact hc2 _ t hcache
  simp only [commit_entry, current_term, hidx, hgt, hcw, Option.getD_some] at h
  by_cases hge : s₁.data.entry_index + 1 ≥ t.entries.length
  · rw [if_pos hge] at h
    cases hadv : advance_headword O hws true
        ⟨⟨s₁.data.headword_index, s₁.data.entry_index + 1,
          s₁.data.headword_entry_count⟩, s₁.cache⟩ with
    | mk b s₃ =>
      rw [hadv] at h
      obtain rfl : s₃ = s' := by simpa using h
      have hconsL : StCons O ⟨⟨s₁.data.headword_index,
          s₁.data.entry_index + 1, s₁.data.headword_entry_count⟩, s₁.cache⟩ :=
        ⟨hc1, hc2, hc3⟩
      obtain ⟨hcS, hsome, hfail⟩ := advance_spec O hws true hWF _ hconsL b s₃ hadv
      cases b with
      | true =>
        obtain ⟨e0, elen, ev, _, ecnt, _, _, _, _⟩ := hsome rfl
        refine ⟨elen, hcS.1, hcS.2.1, hcS.2.2, ?_, ?_⟩
        · intro _
          rw [ecnt]
          simp
        · intro n hn
          rw [e0]
          omega
      | false =>
        obtain ⟨hAF, hskips⟩ := hfail rfl
        rcases hAF with ⟨hse, hb1, _⟩ | ⟨e0, ecnt, ecache, hb1, _⟩
        · subst hse
          refine ⟨hlen, hc1, hc2, hc3, ?_, ?_⟩
          · intro hvw
            show dict_get s₁.data.headword_entry_count
              (current_word hws s₁) ≠ none
            rw [← hhw, hcw]
            simp
          · intro n hn
            show s₁.data.entry_index + 1 ≤ n
            have hn' : dict_get s₁.data.headword_entry_count
                (current_word hws s₁) = some n := hn
            rw [← hhw, hcw] at hn'
            obtain rfl : t.entries.length = n := by simpa using hn'
            omega
        · obtain ⟨hb1a, hb1b⟩ := hb1 rfl
          have hlen₃ : s₃.data.headword_index < hws.length := by omega
          refine ⟨hlen₃, hcS.1, hcS.2.1, hcS.2.2, ?_, ?_⟩
          · intro hvw
            exfalso
            have hbad := hskips.1 rfl s₃.data.headword_index hb1b hlen₃
            have hvw' : valid_word O (hws.getD s₃.data.headword_index "") =
              true := hvw
            rw [hvw'] at hbad
            cases hbad
          · intro n hn
            rw [e0]
            omega
  · rw [if_neg hge] at h
    obtain rfl : (⟨⟨s₁.data.headword_index, s₁.data.entry_index + 1,
        s₁.data.headword_entry_count⟩, s₁.cache⟩ : St) = s' := by simpa using h
    refine ⟨hlen, hc1, hc2, hc3, ?_, ?_⟩
    · intro hvw
      show dict_get s₁.data.headword_entry_count (current_word hws s₁) ≠ none
      rw [← hhw, hcw]
      simp
    · intro n hn
      show s₁.data.entry_index + 1 ≤ n
      have hn' : dict_get s₁.data.headword_entry_count
          (current_word hws s₁) = some n := hn
      rw [← hhw, hcw] at hn'
      obtain rfl : t.entries.length = n := by simpa using hn'
      omega

theorem undo_spec (O : Oracle) (hws : List String) (s₁ s' : St) (b : Bool)
    (hWF : OracleWF O) (hinv : Inv O hws s₁)
    (h : undo_core O hws s₁ = some (s', b)) : Inv O hws s' := by
  obtain ⟨hlen, hc1, hc2, hc3, hcur, hent⟩ := hinv
  simp only [undo_core] at h
  by_cases he : s₁.data.entry_index > 0
  · rw [if_pos he] at h
    simp only [Option.some.injEq, Prod.mk.injEq] at h
    obtain ⟨rfl, rfl⟩ := h
    refine ⟨hlen, hc1, hc2, hc3, hcur, ?_⟩
    · intro n hn
      have := hent n hn
      show s₁.data.entry_index - 1 ≤ n
      omega
  · rw [if_neg he] at h
    by_cases hh : s₁.data.headword_index > 0
    · rw [if_pos hh] at h
      simp only [go_to_previous_headword] at h
      cases hadv : advance_headword O hws false s₁ with
      | mk bb s₂ =>
        rw [hadv] at h
        obtain ⟨hcS, hsome, hfail⟩ :=
          advance_spec O hws false hWF s₁ ⟨hc1, hc2, hc3⟩ bb s₂ hadv
        cases bb with
        | true =>
          obtain ⟨e0, elen, ev, ⟨t₂, hct, hot⟩, ecnt, _, _, _, _⟩ := hsome rfl
          have hidx₂ : hws[s₂.data.headword_index]? =
              some (current_word hws s₂) := getElem?_eq_some_getD hws _ elen
          rcases get_term_spec O (current_word hws s₂)
              s₂.data.headword_entry_count s₂.cache with
            ⟨t₃, hc', hgt⟩ | ⟨hc', t₃, ho', hne', hgt⟩ | ⟨hc', hgt, hv'⟩
          rotate_left
          · rw [hct] at hc'; cases hc'
          · rw [hct] at hc'; cases hc'
          rw [hct] at hc'
          obtain rfl : t₂ = t₃ := by simpa using hc'
          have hhw₂ : t₂.headword = current_word hws s₂ := (hWF _ t₂ hot).1
          have hcnt₂ : dict_get s₂.data.headword_entry_count t₂.headword =
              some t₂.entries.length := by
            rw [hhw₂, ecnt]
            have : oracle_count O (current_word hws s₂) = t₂.entries.length := by
              simp [oracle_count, hot]
            rw [this]
          simp only [current_term, hidx₂, hgt, hcnt₂, Option.getD_some] at h
          simp only [Option.some.injEq, Prod.mk.injEq] at h
          obtain ⟨rfl, rfl⟩ := h
          refine ⟨elen, hcS.1, hcS.2.1, hcS.2.2, ?_, ?_⟩
          · intro hvw
            show dict_get s₂.data.headword_entry_count
              (current_word hws s₂) ≠ none
            rw [ecnt]
            simp
          · intro n hn
            have hn' : dict_get s₂.data.headword_entry_count
                (current_word hws s₂) = some n := hn
            rw [← hhw₂, hcnt₂] at hn'
            obtain rfl : t₂.entries.length = n := by simpa using hn'
            show t₂.entries.length - 1 ≤ t₂.entries.length
            omega
        | false =>
          obtain ⟨hAF, hskips⟩ := hfail rfl
          simp only [Option.some.injEq, Prod.mk.injEq] at h
          obtain ⟨rfl, rfl⟩ := h
          rcases hAF with ⟨hse, _, _⟩ | ⟨e0, ecnt, ecache, _, hb2⟩
          · subst hse
            exact ⟨hlen, hc1, hc2, hc3, hcur, hent⟩
          · obtain ⟨hz, hdec⟩ := hb2 rfl
            have hlen₂ : s₂.data.headword_index < hws.length := by omega
            refine ⟨hlen₂, ?_, ?_, ?_, ?_, ?_⟩
            · intro w' t' hc
              rw [ecache] at hc
              exact hc1 w' t' hc
            · intro w' t' hc
              rw [ecache] at hc
              rw [ecnt]
              exact hc2 w' t' hc
            · intro w' n hn
              rw [ecnt] at hn
              exact hc3 w' n hn
            · intro hvw
              exfalso
              have hbad := hskips.2 rfl (by omega) s₂.data.headword_index hdec
              have hvw' : valid_word O (hws.getD s₂.data.headword_index "") =
                true := hvw
              rw [hvw'] at hbad
              cases hbad
            · intro n hn
              rw [e0]
              omega
    · rw [if_neg hh] at h
      simp only [Option.some.injEq, Prod.mk.injEq] at h
      obtain ⟨rfl, rfl⟩ := h
      exact ⟨hlen, hc1, hc2, hc3, hcur, hent⟩

theorem reachable_inv (O : Oracle) (hws : List String) (hWF : OracleWF O) :
    ∀ s, Reachable O hws s → Inv O hws s := by
  intro s hr
  induction hr with
  | fresh s h =>
    refine (init_spec O hws _ s hWF ⟨?_, ?_, Or.inl rfl⟩ h).1
    · intro w n hn
      simp [StateData.fresh, dict_get] at hn
    · intro n hn
      simp [StateData.fresh, dict_get] at hn
  | restore r s hrr h ih =>
    exact (init_spec O hws r.data s hWF (inv_data O hws r ih) h).1
  | commit s e s₁ s' hrr hce hcm ih =>
    obtain ⟨hinv₁, t, ho, hcache, hcnt, hlt', hge⟩ :=
      current_entry_spec O hws s e s₁ hWF ih hce
    exact commit_spec O hws s₁ s' hWF hinv₁ t hcache hlt' hcm
  | undoStep s e s₁ s' b hrr hce hun ih =>
    obtain ⟨hinv₁, _⟩ := current_entry_spec O hws s e s₁ hWF ih hce
    exact undo_spec O hws s₁ s' b hWF hinv₁ hun

theorem decode_encode_counts (d : List (String × Nat)) :
    decode_counts (encode_counts d) = some d := by
  induction d with
  | nil => rfl
  | cons p d ih =>
    obtain ⟨k, v⟩ := p
    have ih' : decode_count_fields (d.map (fun p => (p.1, Json.num p.2))) =
        some d := by
      simpa [encode_counts, decode_counts] using ih
    simp [encode_counts, decode_counts, decode_count_fields, ih']

theorem decode_encode_state_data (d : StateData) :
    decode_state_data (encode_state_data d) = some d := by
  simp only [encode_state_data, decode_state_data, json_field]
  simp [decode_encode_counts d.headword_entry_count]

/-- C7: the checkpoint serialization round-trips exactly — for every cursor
state (in particular every reachable one) and any previous file content,
writing the checkpoint with `_save_history` and reading it back with
`_load_history` yields the same `_StateData`. -/
theorem c7_checkpoint_roundtrip (d : StateData) (file : Option Json) :
    load_history (save_history true file d) = d := by
  simp [save_history, load_history, decode_encode_state_data]

/-- C9: when the external lookup raises (and is actually consulted, i.e. the
word is not cached), `_get_term_for_headword` catches the exception and
returns `None` with both the count map and the cache untouched; the
operation is total, so the exception never propagates to the caller and one
failing word cannot abort the session. -/
theorem c9_lookup_error (O : Oracle) (w : String)
    (counts : List (String × Nat)) (cache : String → Option DictionaryTerm)
    (herr : O w = .error ()) (hmiss : cache w = none) :
    get_term_for_headword O w counts cache = ⟨none, counts, cache, true⟩ := by
  simp [get_term_for_headword, hmiss, herr]

/-- Closed instance of `c9_lookup_error` at a concrete failing oracle. -/
theorem c9_lookup_error_witness :
    get_term_for_headword (fun _ => .error ()) "fallo" [("sol", 1)]
      (fun _ => none) = ⟨none, [("sol", 1)], fun _ => none, true⟩ :=
  c9_lookup_error (fun _ => .error ()) "fallo" [("sol", 1)] (fun _ => none)
    rfl rfl

/-- C10: `_save_history` never raises to its caller (it catches `IOError`
and is total here by construction); `commit_entry` and `undo` complete and
their in-memory mutation stands regardless of whether the checkpoint write
succeeded, and a failed write leaves the old file content in place, so the
in-memory state can run ahead of the persisted one. -/
theorem c10_save_failure (O : Oracle) (hws : List String) :
    (∀ ok s file, (commit_entry_persist O hws ok s file).map Prod.fst =
      commit_entry O hws s) ∧
    (∀ ok s file, (undo_persist O hws ok s file).map Prod.fst =
      undo O hws s) ∧
    (∀ s s' file, commit_entry O hws s = some s' →
      commit_entry_persist O hws false s file = some (s', file)) := by
  refine ⟨?_, ?_, ?_⟩
  · intro ok s file
    simp only [commit_entry_persist]
    cases commit_entry O hws s <;> simp
  · intro ok s file
    simp only [undo_persist, undo]
    cases hu : undo_core O hws s with
    | none => simp
    | some p =>
      obtain ⟨s', b⟩ := p
      cases b <;> simp
  · intro s s' file h
    simp [commit_entry_persist, h, save_history]

/-- Closed instance of `c10_save_failure`: at a concrete oracle a commit
whose checkpoint write fails still mutates the in-memory state (entry index
1, count recorded), while the absent file still loads as the defaults. -/
theorem c10_save_failure_witness :
    ∃ s', commit_entry_persist
        (fun w => if w = "luna" then
          .ok (some ⟨"luna", [⟨"luna:1", "noun", ["moon"]⟩,
            ⟨"luna:2", "noun", ["glass"]⟩]⟩) else .ok none)
        ["luna"] false ⟨⟨0, 0, []⟩, fun _ => none⟩ none = some (s', none) ∧
      s'.data.entry_index = 1 ∧ load_history none = StateData.fresh := by
  have hcm : commit_entry
      (fun w => if w = "luna" then
        .ok (some ⟨"luna", [⟨"luna:1", "noun", ["moon"]⟩,
          ⟨"luna:2", "noun", ["glass"]⟩]⟩) else .ok none)
      ["luna"] ⟨⟨0, 0, []⟩, fun _ => none⟩ =
      some ⟨⟨0, 1, [("luna", 2)]⟩,
        fun w' => if w' = "luna" then
          some ⟨"luna", [⟨"luna:1", "noun", ["moon"]⟩,
            ⟨"luna:2", "noun", ["glass"]⟩]⟩ else none⟩ := by
    simp [commit_entry, current_term, get_term_for_headword, dict_get,
      dict_set, current_word]
  refine ⟨_, (c10_save_failure _ ["luna"]).2.2 _ _ none hcm, rfl, rfl⟩

/-- C6: commit and undo are inverse at entry granularity within a single
headword — from a state whose current (cached) term still has entries left
after the next one, `commit_entry` followed by `undo` returns to exactly the
same state, with the headword index unchanged and `entry_index` restored. -/
theorem c6_commit_undo_inverse (O : Oracle) (hws : List String) (s : St)
    (t : DictionaryTerm) (hWF : OracleWF O)
    (hc1 : CacheConsistent O s) (hc2 : CacheCounted s)
    (hlen : s.data.headword_index < hws.length)
    (hcache : s.cache (current_word hws s) = some t)
    (he : s.data.entry_index + 1 < t.entries.length) :
    ∃ s₂, commit_entry O hws s = some s₂ ∧
      undo_core O hws s₂ = some (s, true) := by
  have hidx : hws[s.data.headword_index]? = some (current_word hws s) :=
    getElem?_eq_some_getD hws _ hlen
  have hhw : t.headword = current_word hws s := (hWF _ t (hc1 _ t hcache)).1
  rcases get_term_spec O (current_word hws s)
      s.data.headword_entry_count s.cache with
    ⟨t', hc', hgt⟩ | ⟨hc', t', ho', hne', hgt⟩ | ⟨hc', hgt, hv'⟩
  rotate_left
  · rw [hcache] at hc'; cases hc'
  · rw [hcache] at hc'; cases hc'
  rw [hcache] at hc'
  obtain rfl : t = t' := by simpa using hc'
  have hcw : dict_get s.data.headword_entry_count t.headword =
      some t.entries.length := by
    rw [hhw]; exact hc2 _ t hcache
  refine ⟨⟨⟨s.data.headword_index, s.data.entry_index + 1,
    s.data.headword_entry_count⟩, s.cache⟩, ?_, ?_⟩
  · simp only [commit_entry, current_term, hidx, hgt, hcw, Option.getD_some]
    rw [if_neg (by omega)]
  · simp only [undo_core]
    rw [if_pos (by omega : 0 < s.data.entry_index + 1)]
    have heta : (⟨⟨s.data.headword_index, s.data.entry_index + 1 - 1,
        s.data.headword_entry_count⟩, s.cache⟩ : St) = s := by
      show (⟨⟨s.data.headword_index, s.data.entry_index,
        s.data.headword_entry_count⟩, s.cache⟩ : St) = s
      rfl
    rw [heta]

/-- Closed instance of `c6_commit_undo_inverse` at a cached three-entry
term, from entry index 1. -/
theorem c6_commit_undo_inverse_witness :
    ∃ s₂, commit_entry
        (fun w => if w = "flor" then
          .ok (some ⟨"flor", [⟨"flor:1", "noun", []⟩, ⟨"flor:2", "noun", []⟩,
            ⟨"flor:3", "noun", []⟩]⟩) else .ok none)
        ["flor"] ⟨⟨0, 1, [("flor", 3)]⟩,
          fun w' => if w' = "flor" then
            some ⟨"flor", [⟨"flor:1", "noun", []⟩, ⟨"flor:2", "noun", []⟩,
              ⟨"flor:3", "noun", []⟩]⟩ else none⟩ = some s₂ ∧
      undo_core
        (fun w => if w = "flor" then
          .ok (some ⟨"flor", [⟨"flor:1", "noun", []⟩, ⟨"flor:2", "noun", []⟩,
            ⟨"flor:3", "noun", []⟩]⟩) else .ok none)
        ["flor"] s₂ = some (⟨⟨0, 1, [("flor", 3)]⟩,
          fun w' => if w' = "flor" then
            some ⟨"flor", [⟨"flor:1", "noun", []⟩, ⟨"flor:2", "noun", []⟩,
              ⟨"flor:3", "noun", []⟩]⟩ else none⟩, true) := by
  refine c6_commit_undo_inverse _ ["flor"] _
    ⟨"flor", [⟨"flor:1", "noun", []⟩, ⟨"flor:2", "noun", []⟩,
      ⟨"flor:3", "noun", []⟩]⟩ ?_ ?_ ?_ ?_ ?_ ?_
  · intro w t h
    by_cases hw : w = "flor"
    · subst hw
      have h' : (⟨"flor", [⟨"flor:1", "noun", []⟩, ⟨"flor:2", "noun", []⟩,
          ⟨"flor:3", "noun", []⟩]⟩ : DictionaryTerm) = t := by simpa using h
      subst h'
      exact ⟨rfl, by simp⟩
    · simp [hw] at h
  · intro w t h
    by_cases hw : w = "flor"
    · subst hw
      have h' : (⟨"flor", [⟨"flor:1", "noun", []⟩, ⟨"flor:2", "noun", []⟩,
          ⟨"flor:3", "noun", []⟩]⟩ : DictionaryTerm) = t := by simpa using h
      subst h'
      simp
    · simp [hw] at h
  · intro w t h
    by_cases hw : w = "flor"
    · subst hw
      have h' : (⟨"flor", [⟨"flor:1", "noun", []⟩, ⟨"flor:2", "noun", []⟩,
          ⟨"flor:3", "noun", []⟩]⟩ : DictionaryTerm) = t := by simpa using h
      subst h'
      simp [dict_get]
    · simp [hw] at h
  · simp
  · simp [current_word]
  · simp

/-- C5 counterexample: a "not found" result is NOT cached — at an oracle
that knows no words, the first `get_term` request for a headword consults
the external lookup, caches nothing, and an identical second request
consults the external lookup again, contradicting the claim that every
result (including "not found") is cached after the first request. -/
theorem c5_counterexample :
    (get_term_for_headword (fun _ => .ok none) "nada" [] (fun _ => none)) =
      ⟨none, [], fun _ => none, true⟩ ∧
    (get_term_for_headword (fun _ => .ok none) "nada"
      (get_term_for_headword (fun _ => .ok none) "nada" []
        (fun _ => none)).counts
      (get_term_for_headword (fun _ => .ok none) "nada" []
        (fun _ => none)).cache).consulted = true :=
  ⟨rfl, rfl⟩

/-- C5 amended: only successful nonempty lookups are memoized.  When the
first `get_term` request for a headword returns a term, a repeated request
is a pure cache hit (same term, maps untouched, no external lookup); when it
returns `None` (not found, empty entries, or error), nothing was cached and
a repeated request consults the external lookup again. -/
theorem c5_cache_on_success (O : Oracle) (w : String)
    (counts : List (String × Nat)) (cache : String → Option DictionaryTerm) :
    (∀ t, (get_term_for_headword O w counts cache).term = some t →
      get_term_for_headword O w
        (get_term_for_headword O w counts cache).counts
        (get_term_for_headword O w counts cache).cache =
      ⟨some t, (get_term_for_headword O w counts cache).counts,
        (get_term_for_headword O w counts cache).cache, false⟩) ∧
    ((get_term_for_headword O w counts cache).term = none →
      (get_term_for_headword O w counts cache).counts = counts ∧
      (get_term_for_headword O w counts cache).cache = cache ∧
      (get_term_for_headword O w
        (get_term_for_headword O w counts cache).counts
        (get_term_for_headword O w counts cache).cache).consulted = true) := by
  constructor
  · intro t ht
    have hcc := (get_term_some O w counts cache t ht).2.1
    rcases get_term_spec O w
        (get_term_for_headword O w counts cache).counts
        (get_term_for_headword O w counts cache).cache with
      ⟨t'', hc2, he2⟩ | ⟨hc2, _, _, _, _⟩ | ⟨hc2, _, _⟩
    · rw [hcc] at hc2
      obtain rfl : t = t'' := by simpa using hc2
      exact he2
    · rw [hcc] at hc2; cases hc2
    · rw [hcc] at hc2; cases hc2
  · intro ht
    obtain ⟨hgt, hmiss, _⟩ := get_term_none O w counts cache ht
    rw [hgt]
    refine ⟨rfl, rfl, ?_⟩
    rcases get_term_spec O w counts cache with
      ⟨t', hc, he⟩ | ⟨hc, t', ho, hne, he⟩ | ⟨hc, he, hv⟩
    · rw [hc] at hmiss; cases hmiss
    · rw [he] at ht; exact absurd ht (by simp)
    · rw [he]

/-- Closed instance of `c5_cache_on_success`: a successful first lookup
makes the second request a cache hit, and a failed first lookup leaves the
second request consulting the oracle. -/
theorem c5_cache_on_success_witness :
    get_term_for_headword
        (fun w => if w = "gato" then
          .ok (some ⟨"gato", [⟨"gato:1", "noun", ["cat"]⟩]⟩) else .ok none)
        "gato"
        (get_term_for_headword
          (fun w => if w = "gato" then
            .ok (some ⟨"gato", [⟨"gato:1", "noun", ["cat"]⟩]⟩) else .ok none)
          "gato" [] (fun _ => none)).counts
        (get_term_for_headword
          (fun w => if w = "gato" then
            .ok (some ⟨"gato", [⟨"gato:1", "noun", ["cat"]⟩]⟩) else .ok none)
          "gato" [] (fun _ => none)).cache =
      ⟨some ⟨"gato", [⟨"gato:1", "noun", ["cat"]⟩]⟩,
        (get_term_for_headword
          (fun w => if w = "gato" then
            .ok (some ⟨"gato", [⟨"gato:1", "noun", ["cat"]⟩]⟩) else .ok none)
          "gato" [] (fun _ => none)).counts,
        (get_term_for_headword
          (fun w => if w = "gato" then
            .ok (some ⟨"gato", [⟨"gato:1", "noun", ["cat"]⟩]⟩) else .ok none)
          "gato" [] (fun _ => none)).cache, false⟩ :=
  (c5_cache_on_success _ "gato" [] (fun _ => none)).1
    ⟨"gato", [⟨"gato:1", "noun", ["cat"]⟩]⟩ rfl

/-- C8 counterexample: the curate pipeline word-list loader keeps the whole
stripped line, so on a line holding two tokens it does NOT reduce the
headword to the first whitespace-delimited token (which is what the legacy
loader does). -/
theorem c8_counterexample :
    load_headword_list ["hola mundo".data] = ["hola mundo".data] ∧
    load_search_words ["hola mundo".data] = ["hola".data] ∧
    load_headword_list ["hola mundo".data] ≠
      load_search_words ["hola mundo".data] := by
  refine ⟨?_, ?_, ?_⟩ <;> decide

/-- C8 amended: both loaders drop blank lines and keep file order with no
reordering; the legacy `vocab_selector` loader keeps only the first
whitespace-delimited token of each non-blank line, while the curate pipeline
loader keeps the entire stripped line (text after the first token is
retained, as the concrete two-token line shows). -/
theorem c8_loaders (lines : List Line) :
    List.Sublist (load_headword_list lines) (lines.map py_strip) ∧
    (∀ l, l ∈ load_headword_list lines → l ≠ []) ∧
    load_search_words lines =
      (load_headword_list lines).map (fun l => (py_split l).headD []) ∧
    load_headword_list ["  hola mundo  ".data, "".data, "sol".data] =
      ["hola mundo".data, "sol".data] := by
  refine ⟨?_, ?_, rfl, by decide⟩
  · exact List.filter_sublist _
  · intro l hl
    simp only [load_headword_list, List.mem_filter, decide_eq_true_eq] at hl
    exact hl.2

/-- Closed instance of `c8_loaders`: the kept line is non-blank, it is a
subsequence of the stripped lines, and the legacy loader extracts its first
token. -/
theorem c8_loaders_witness :
    ("hola mundo".data : Line) ≠ [] ∧
    List.Sublist (load_headword_list ["hola mundo".data])
      (["hola mundo".data].map py_strip) ∧
    load_search_words ["hola mundo".data] =
      (load_headword_list ["hola mundo".data]).map
        (fun l => (py_split l).headD []) :=
  ⟨(c8_loaders ["hola mundo".data]).2.1 "hola mundo".data (by decide),
   (c8_loaders ["hola mundo".data]).1, (c8_loaders ["hola mundo".data]).2.2.1⟩

/-- C2: cross-headword undo reconstructs the last entry, not the first —
from any consistent state at entry 0 whose nearest previous headword with
entries sits at index `j` (every index strictly between holds an empty
word), `undo` saves and lands on headword `j` with `entry_index` equal to
that word's entry count minus one. -/
theorem c2_cross_headword_undo (O : Oracle) (hws : List String) (s : St)
    (j : Nat) (hWF : OracleWF O) (hcons : StCons O s)
    (he : s.data.entry_index = 0)
    (hlen : s.data.headword_index < hws.length)
    (hj : j < s.data.headword_index)
    (hjv : valid_word O (hws.getD j "") = true)
    (hbetween : ∀ i, j < i → i < s.data.headword_index →
      valid_word O (hws.getD i "") = false) :
    ∃ s', undo_core O hws s = some (s', true) ∧
      s'.data.headword_index = j ∧
      s'.data.entry_index = oracle_count O (hws.getD j "") - 1 := by
  obtain ⟨hc1, hc2, hc3⟩ := hcons
  cases hadv : advance_headword O hws false s with
  | mk b s₂ =>
    obtain ⟨hcS, hsome, hfail⟩ :=
      advance_spec O hws false hWF s ⟨hc1, hc2, hc3⟩ b s₂ hadv
    cases b with
    | false =>
      exfalso
      obtain ⟨_, hskips⟩ := hfail rfl
      have := hskips.2 rfl (by omega) j hj
      rw [hjv] at this
      cases this
    | true =>
      obtain ⟨e0, elen, ev, ⟨t₂, hct, hot⟩, ecnt, _, hdec, _, bet2⟩ := hsome rfl
      have hj2 : s₂.data.headword_index = j := by
        by_contra hne
        rcases Nat.lt_or_ge s₂.data.headword_index j with hlt' | hge'
        · have := bet2 j rfl hlt' hj
          rw [hjv] at this
          cases this
        · have hgt' : j < s₂.data.headword_index := by omega
          have := hbetween s₂.data.headword_index hgt' (hdec rfl)
          have hbad : valid_word O (current_word hws s₂) = false := this
          rw [ev] at hbad
          cases hbad
      have hidx₂ : hws[s₂.data.headword_index]? =
          some (current_word hws s₂) := getElem?_eq_some_getD hws _ elen
      rcases get_term_spec O (current_word hws s₂)
          s₂.data.headword_entry_count s₂.cache with
        ⟨t₃, hc', hgt⟩ | ⟨hc', t₃, ho', hne', hgt⟩ | ⟨hc', hgt, hv'⟩
      rotate_left
      · rw [hct] at hc'; cases hc'
      · rw [hct] at hc'; cases hc'
      rw [hct] at hc'
      obtain rfl : t₂ = t₃ := by simpa using hc'
      have hhw₂ : t₂.headword = current_word hws s₂ := (hWF _ t₂ hot).1
      have hcnt₂ : dict_get s₂.data.headword_entry_count t₂.headword =
          some (oracle_count O (current_word hws s₂)) := by
        rw [hhw₂, ecnt]
      refine ⟨⟨⟨s₂.data.headword_index,
        oracle_count O (current_word hws s₂) - 1,
        s₂.data.headword_entry_count⟩, s₂.cache⟩, ?_, hj2, ?_⟩
      · simp only [undo_core]
        rw [if_neg (by omega), if_pos (by omega : 0 < s.data.headword_index)]
        simp only [go_to_previous_headword, hadv]
        simp only [current_term, hidx₂, hgt, hcnt₂, Option.getD_some]
      · show oracle_count O (current_word hws s₂) - 1 =
          oracle_count O (hws.getD j "") - 1
        rw [show current_word hws s₂ = hws.getD j "" from by
          rw [← hj2]; rfl]

/-- Closed instance of `c2_cross_headword_undo`, mirroring the spec
scenario: a three-entry word at index 0, cursor at the next headword with
entry 0 — undo lands on index 0 at entry 2. -/
theorem c2_cross_headword_undo_witness :
    ∃ s', undo_core
        (fun w => if w = "ser" then
          .ok (some ⟨"ser", [⟨"ser:1", "verb", []⟩, ⟨"ser:2", "verb", []⟩,
            ⟨"ser:3", "noun", []⟩]⟩)
        else if w = "mesa" then
          .ok (some ⟨"mesa", [⟨"mesa:1", "noun", []⟩]⟩)
        else .ok none)
        ["ser", "mesa"] ⟨⟨1, 0, []⟩, fun _ => none⟩ = some (s', true) ∧
      s'.data.headword_index = 0 ∧
      s'.data.entry_index = oracle_count
        (fun w => if w = "ser" then
          .ok (some ⟨"ser", [⟨"ser:1", "verb", []⟩, ⟨"ser:2", "verb", []⟩,
            ⟨"ser:3", "noun", []⟩]⟩)
        else if w = "mesa" then
          .ok (some ⟨"mesa", [⟨"mesa:1", "noun", []⟩]⟩)
        else .ok none) (["ser", "mesa"].getD 0 "") - 1 := by
  refine c2_cross_headword_undo _ ["ser", "mesa"] ⟨⟨1, 0, []⟩, fun _ => none⟩
    0 ?_ ⟨?_, ?_, ?_⟩ rfl (by simp) (by simp) ?_ ?_
  · intro w t h
    by_cases hw : w = "ser"
    · subst hw
      have h' : (⟨"ser", [⟨"ser:1", "verb", []⟩, ⟨"ser:2", "verb", []⟩,
          ⟨"ser:3", "noun", []⟩]⟩ : DictionaryTerm) = t := by simpa using h
      subst h'
      exact ⟨rfl, by simp⟩
    · by_cases hw2 : w = "mesa"
      · subst hw2
        have h' : (⟨"mesa", [⟨"mesa:1", "noun", []⟩]⟩ : DictionaryTerm) = t := by
          simpa [hw] using h
        subst h'
        exact ⟨rfl, by simp⟩
      · simp [hw, hw2] at h
  · intro w t h
    cases h
  · intro w t h
    cases h
  · intro w n h
    cases h
  · simp [valid_word]
  · intro i h1 h2
    exfalso
    simp at h2
    omega

/-- C3 counterexample: with an empty headword before the first valid one,
startup self-corrects to index 1; calling `undo` before any commit then
does NOT leave the cursor unchanged — the failed backward walk drags
`headword_index` to 0 (an empty headword) before the no-op branch logs and
returns without saving. -/
theorem c3_counterexample :
    ((init_state
        (fun w => if w = "risa" then
          .ok (some ⟨"risa", [⟨"risa:1", "noun", []⟩, ⟨"risa:2", "noun", []⟩]⟩)
        else .ok none)
        ["pe", "risa"] StateData.fresh).map
      (fun s => s.data.headword_index)) = some 1 ∧
    (((init_state
        (fun w => if w = "risa" then
          .ok (some ⟨"risa", [⟨"risa:1", "noun", []⟩, ⟨"risa:2", "noun", []⟩]⟩)
        else .ok none)
        ["pe", "risa"] StateData.fresh).bind
      (fun s => undo_core
        (fun w => if w = "risa" then
          .ok (some ⟨"risa", [⟨"risa:1", "noun", []⟩, ⟨"risa:2", "noun", []⟩]⟩)
        else .ok none)
        ["pe", "risa"] s)).map
      (fun p => (p.1.data.headword_index, p.1.data.entry_index, p.2))) =
      some (0, 0, false) := by
  have hinit : init_state
      (fun w => if w = "risa" then
        .ok (some ⟨"risa", [⟨"risa:1", "noun", []⟩, ⟨"risa:2", "noun", []⟩]⟩)
      else .ok none)
      ["pe", "risa"] StateData.fresh =
      some ⟨⟨1, 0, [("risa", 2)]⟩,
        fun w' => if w' = "risa" then
          some ⟨"risa", [⟨"risa:1", "noun", []⟩, ⟨"risa:2", "noun", []⟩]⟩
        else none⟩ := by
    simp [init_state, ensure_valid_state, get_term_for_headword,
      advance_headword, step_index, dict_set, StateData.fresh]
  have hundo : undo_core
      (fun w => if w = "risa" then
        .ok (some ⟨"risa", [⟨"risa:1", "noun", []⟩, ⟨"risa:2", "noun", []⟩]⟩)
      else .ok none)
      ["pe", "risa"]
      ⟨⟨1, 0, [("risa", 2)]⟩,
        fun w' => if w' = "risa" then
          some ⟨"risa", [⟨"risa:1", "noun", []⟩, ⟨"risa:2", "noun", []⟩]⟩
        else none⟩ =
      some (⟨⟨0, 0, [("risa", 2)]⟩,
        fun w' => if w' = "risa" then
          some ⟨"risa", [⟨"risa:1", "noun", []⟩, ⟨"risa:2", "noun", []⟩]⟩
        else none⟩, false) := by
    simp [undo_core, go_to_previous_headword, advance_headword, step_index,
      get_term_for_headword]
  rw [hinit]
  refine ⟨rfl, ?_⟩
  simp only [Option.bind]
  rw [hundo]
  rfl

/-- C3 amended: before any commit, `undo` never writes a checkpoint (the
save flag is `false`) and leaves `entry_index` at 0.  When the first valid
headword sits at list index 0 the state is returned completely unchanged;
when earlier headwords are all empty, the failed backward walk resets
`headword_index` to 0 while both session maps and `entry_index` stay
unchanged.  The Undo command still calls `delete_entry` on the entry at the
rewound cursor, but deleting an entry the Bank does not hold is a no-op, so
no Bank data is removed in a session that stored nothing. -/
theorem c3_undo_noop (O : Oracle) (hws : List String) :
    (∀ s : St, s.data.entry_index = 0 → s.data.headword_index = 0 →
      undo_core O hws s = some (s, false)) ∧
    (∀ s : St, StCons O s → s.data.entry_index = 0 →
      0 < s.data.headword_index → s.data.headword_index < hws.length →
      (∀ i, i < s.data.headword_index →
        valid_word O (hws.getD i "") = false) →
      (∀ hWF : OracleWF O, ∃ s', undo_core O hws s = some (s', false) ∧
        s'.data.headword_index = 0 ∧ s'.data.entry_index = 0 ∧
        s'.data.headword_entry_count = s.data.headword_entry_count ∧
        s'.cache = s.cache)) ∧
    (∀ (bank : List String) (id : String), id ∉ bank →
      bank_delete bank id = bank) := by
  refine ⟨?_, ?_, ?_⟩
  · intro s he hh
    simp [undo_core, he, hh]
  · intro s hcons he hh hlen hempty hWF
    cases hadv : advance_headword O hws false s with
    | mk b s₂ =>
      obtain ⟨hcS, hsome, hfail⟩ :=
        advance_spec O hws false hWF s hcons b s₂ hadv
      cases b with
      | true =>
        exfalso
        obtain ⟨_, _, ev, _, _, _, hdec, _, _⟩ := hsome rfl
        have hbad := hempty s₂.data.headword_index (hdec rfl)
        have hbad' : valid_word O (current_word hws s₂) = false := hbad
        rw [ev] at hbad'
        cases hbad'
      | false =>
        obtain ⟨hAF, _⟩ := hfail rfl
        rcases hAF with ⟨hse, _, hb2⟩ | ⟨e0, ecnt, ecache, _, hb2⟩
        · exfalso
          rcases hb2 rfl with h0 | hout
          · omega
          · omega
        · refine ⟨s₂, ?_, (hb2 rfl).1, e0, ecnt, ecache⟩
          simp only [undo_core]
          rw [if_neg (by omega), if_pos (by omega : 0 < s.data.headword_index)]
          simp only [go_to_previous_headword, hadv]
  · intro bank id hid
    simp only [bank_delete]
    rw [List.filter_eq_self]
    intro a ha
    simp only [decide_eq_true_eq]
    intro hcontra
    subst hcontra
    exact hid ha

/-- Closed instance of `c3_undo_noop`: the exact no-op at index 0, the
index-reset form with two leading empty headwords, and the no-op Bank
deletion of an entry that was never stored. -/
theorem c3_undo_noop_witness :
    undo_core (fun _ => .ok none) ["x"] ⟨⟨0, 0, []⟩, fun _ => none⟩ =
      some (⟨⟨0, 0, []⟩, fun _ => none⟩, false) ∧
    (∃ s', undo_core
        (fun w => if w = "cc" then
          .ok (some ⟨"cc", [⟨"cc:1", "noun", []⟩]⟩) else .ok none)
        ["aa", "bb", "cc"] ⟨⟨2, 0, []⟩, fun _ => none⟩ = some (s', false) ∧
      s'.data.headword_index = 0 ∧ s'.data.entry_index = 0 ∧
      s'.data.headword_entry_count = [] ∧ s'.cache = (fun _ => none)) ∧
    bank_delete ["ser:1"] "ser:2" = ["ser:1"] := by
  refine ⟨?_, ?_, ?_⟩
  · exact (c3_undo_noop (fun _ => .ok none) ["x"]).1 _ rfl rfl
  · obtain ⟨s', h1, h2, h3, h4, h5⟩ :=
      (c3_undo_noop
        (fun w => if w = "cc" then
          .ok (some ⟨"cc", [⟨"cc:1", "noun", []⟩]⟩) else .ok none)
        ["aa", "bb", "cc"]).2.1 ⟨⟨2, 0, []⟩, fun _ => none⟩
      (by
        refine ⟨?_, ?_, ?_⟩
        · intro w t h
          exact nomatch h
        · intro w t h
          exact nomatch h
        · intro w n h
          exact nomatch h)
      rfl (by simp) (by simp)
      (by
        intro i hi
        simp at hi
        interval_cases i <;> simp [valid_word])
      (by
        intro w t h
        by_cases hw : w = "cc"
        · subst hw
          have h' : (⟨"cc", [⟨"cc:1", "noun", []⟩]⟩ : DictionaryTerm) = t := by
            simpa using h
          subst h'
          exact ⟨rfl, by simp⟩
        · simp [hw] at h)
    exact ⟨s', h1, h2, h3, h4, h5⟩
  · exact (c3_undo_noop (fun _ => .ok none) ["x"]).2.2 ["ser:1"] "ser:2"
      (by simp)

/-- C4 counterexample: an undo at the first valid headword, preceded by an
empty headword, leaves `current_headword` on the empty word (index 0, zero
entries) even though a headword with entries exists right after it — a
navigation step whose landing spot is neither a headword with entries nor
the terminal end of the list. -/
theorem c4_counterexample :
    (((init_state
        (fun w => if w = "sol" then
          .ok (some ⟨"sol", [⟨"sol:1", "noun", []⟩]⟩) else .ok none)
        ["vacio", "sol"] StateData.fresh).bind
      (fun s => undo_core
        (fun w => if w = "sol" then
          .ok (some ⟨"sol", [⟨"sol:1", "noun", []⟩]⟩) else .ok none)
        ["vacio", "sol"] s)).map
      (fun p => (p.1.data.headword_index,
        valid_word
          (fun w => if w = "sol" then
            .ok (some ⟨"sol", [⟨"sol:1", "noun", []⟩]⟩) else .ok none)
          (current_word ["vacio", "sol"] p.1)))) = some (0, false) ∧
    valid_word
      (fun w => if w = "sol" then
        .ok (some ⟨"sol", [⟨"sol:1", "noun", []⟩]⟩) else .ok none)
      (["vacio", "sol"].getD 1 "") = true := by
  have hinit : init_state
      (fun w => if w = "sol" then
        .ok (some ⟨"sol", [⟨"sol:1", "noun", []⟩]⟩) else .ok none)
      ["vacio", "sol"] StateData.fresh =
      some ⟨⟨1, 0, [("sol", 1)]⟩,
        fun w' => if w' = "sol" then
          some ⟨"sol", [⟨"sol:1", "noun", []⟩]⟩ else none⟩ := by
    simp [init_state, ensure_valid_state, get_term_for_headword,
      advance_headword, step_index, dict_set, StateData.fresh]
  have hundo : undo_core
      (fun w => if w = "sol" then
        .ok (some ⟨"sol", [⟨"sol:1", "noun", []⟩]⟩) else .ok none)
      ["vacio", "sol"]
      ⟨⟨1, 0, [("sol", 1)]⟩,
        fun w' => if w' = "sol" then
          some ⟨"sol", [⟨"sol:1", "noun", []⟩]⟩ else none⟩ =
      some (⟨⟨0, 0, [("sol", 1)]⟩,
        fun w' => if w' = "sol" then
          some ⟨"sol", [⟨"sol:1", "noun", []⟩]⟩ else none⟩, false) := by
    simp [undo_core, go_to_previous_headword, advance_headword, step_index,
      get_term_for_headword]
  refine ⟨?_, by simp [valid_word]⟩
  rw [hinit]
  simp only [Option.bind]
  rw [hundo]
  simp [valid_word, current_word]

/-- C4 amended: cursor self-correction at construction, and every
`_advance_headword` walk that succeeds, land the cursor on a headword whose
lookup has at least one entry; only a walk that fails at a list boundary
(the terminal condition forward, or undo at the start) can rest on an empty
headword. -/
theorem c4_skip_empty (O : Oracle) (hws : List String) (hWF : OracleWF O) :
    (∀ d s, DataInv O hws d → init_state O hws d = some s →
      valid_word O (current_word hws s) = true) ∧
    (∀ pos s s', StCons O s → advance_headword O hws pos s = (true, s') →
      valid_word O (current_word hws s') = true) := by
  constructor
  · intro d s hd h
    exact (init_spec O hws d s hWF hd h).2
  · intro pos s s' hcons hadv
    obtain ⟨_, hsome, _⟩ := advance_spec O hws pos hWF s hcons true s' hadv
    exact (hsome rfl).2.2.1

/-- Closed instance of `c4_skip_empty`: fresh startup over an empty first
headword self-corrects onto the valid second one. -/
theorem c4_skip_empty_witness :
    ∃ s, init_state
        (fun w => if w = "dos" then
          .ok (some ⟨"dos", [⟨"dos:1", "noun", []⟩]⟩) else .ok none)
        ["uno", "dos"] StateData.fresh = some s ∧
      valid_word
        (fun w => if w = "dos" then
          .ok (some ⟨"dos", [⟨"dos:1", "noun", []⟩]⟩) else .ok none)
        (current_word ["uno", "dos"] s) = true := by
  have hinit : init_state
      (fun w => if w = "dos" then
        .ok (some ⟨"dos", [⟨"dos:1", "noun", []⟩]⟩) else .ok none)
      ["uno", "dos"] StateData.fresh =
      some ⟨⟨1, 0, [("dos", 1)]⟩,
        fun w' => if w' = "dos" then
          some ⟨"dos", [⟨"dos:1", "noun", []⟩]⟩ else none⟩ := by
    simp [init_state, ensure_valid_state, get_term_for_headword,
      advance_headword, step_index, dict_set, StateData.fresh]
  refine ⟨_, hinit, (c4_skip_empty
      (fun w => if w = "dos" then
        .ok (some ⟨"dos", [⟨"dos:1", "noun", []⟩]⟩) else .ok none)
      ["uno", "dos"] ?_).1 StateData.fresh _ ⟨?_, ?_, Or.inl rfl⟩ hinit⟩
  · intro w t h
    by_cases hw : w = "dos"
    · subst hw
      have h' : (⟨"dos", [⟨"dos:1", "noun", []⟩]⟩ : DictionaryTerm) = t := by
        simpa using h
      subst h'
      exact ⟨rfl, by simp⟩
    · simp [hw] at h
  · intro w n hn
    exact nomatch hn
  · intro n hn
    exact nomatch hn

/-- C1 counterexample: with a single two-entry headword, committing from
its last entry (the second commit below) leaves the reachable state with
`entry_index = 2` while the current headword maps to count 2 — the claimed
strict bound `entry_index < count` fails exactly at the commit on the last
entry of the last headword with entries. -/
theorem c1_counterexample :
    ((((init_state
        (fun w => if w = "solo" then
          .ok (some ⟨"solo", [⟨"solo:1", "adjective", ["alone"]⟩,
            ⟨"solo:2", "adverb", ["only"]⟩]⟩) else .ok none)
        ["solo"] StateData.fresh).bind
      (commit_entry
        (fun w => if w = "solo" then
          .ok (some ⟨"solo", [⟨"solo:1", "adjective", ["alone"]⟩,
            ⟨"solo:2", "adverb", ["only"]⟩]⟩) else .ok none)
        ["solo"])).bind
      (commit_entry
        (fun w => if w = "solo" then
          .ok (some ⟨"solo", [⟨"solo:1", "adjective", ["alone"]⟩,
            ⟨"solo:2", "adverb", ["only"]⟩]⟩) else .ok none)
        ["solo"])).map
      (fun s => (s.data.entry_index,
        dict_get s.data.headword_entry_count (current_word ["solo"] s)))) =
      some (2, some 2) ∧ ¬((2 : Nat) < 2) := by
  have hinit : init_state
      (fun w => if w = "solo" then
        .ok (some ⟨"solo", [⟨"solo:1", "adjective", ["alone"]⟩,
          ⟨"solo:2", "adverb", ["only"]⟩]⟩) else .ok none)
      ["solo"] StateData.fresh =
      some ⟨⟨0, 0, [("solo", 2)]⟩,
        fun w' => if w' = "solo" then
          some ⟨"solo", [⟨"solo:1", "adjective", ["alone"]⟩,
            ⟨"solo:2", "adverb", ["only"]⟩]⟩ else none⟩ := by
    simp [init_state, ensure_valid_state, get_term_for_headword,
      advance_headword, step_index, dict_set, StateData.fresh]
  have hc1 : commit_entry
      (fun w => if w = "solo" then
        .ok (some ⟨"solo", [⟨"solo:1", "adjective", ["alone"]⟩,
          ⟨"solo:2", "adverb", ["only"]⟩]⟩) else .ok none)
      ["solo"] ⟨⟨0, 0, [("solo", 2)]⟩,
        fun w' => if w' = "solo" then
          some ⟨"solo", [⟨"solo:1", "adjective", ["alone"]⟩,
            ⟨"solo:2", "adverb", ["only"]⟩]⟩ else none⟩ =
      some ⟨⟨0, 1, [("solo", 2)]⟩,
        fun w' => if w' = "solo" then
          some ⟨"solo", [⟨"solo:1", "adjective", ["alone"]⟩,
            ⟨"solo:2", "adverb", ["only"]⟩]⟩ else none⟩ := by
    simp [commit_entry, current_term, get_term_for_headword, dict_get,
      advance_headword, step_index]
  have hc2 : commit_entry
      (fun w => if w = "solo" then
        .ok (some ⟨"solo", [⟨"solo:1", "adjective", ["alone"]⟩,
          ⟨"solo:2", "adverb", ["only"]⟩]⟩) else .ok none)
      ["solo"] ⟨⟨0, 1, [("solo", 2)]⟩,
        fun w' => if w' = "solo" then
          some ⟨"solo", [⟨"solo:1", "adjective", ["alone"]⟩,
            ⟨"solo:2", "adverb", ["only"]⟩]⟩ else none⟩ =
      some ⟨⟨0, 2, [("solo", 2)]⟩,
        fun w' => if w' = "solo" then
          some ⟨"solo", [⟨"solo:1", "adjective", ["alone"]⟩,
            ⟨"solo:2", "adverb", ["only"]⟩]⟩ else none⟩ := by
    simp [commit_entry, current_term, get_term_for_headword, dict_get,
      advance_headword, step_index]
  rw [hinit]
  simp only [Option.bind]
  rw [hc1]
  simp only [Option.bind]
  rw [hc2]
  exact ⟨rfl, by decide⟩

/-- C1 amended: for every state reachable by the curation driver (fresh or
restored startup, then commands dispatched after `current_entry` resolved),
whenever the current headword maps to a nonzero recorded count `n`,
`0 <= entry_index <= n` holds; the bound is `<=`, not `<`, because the
commit on the last entry of the final headword with entries leaves
`entry_index = n` (the terminal condition) as the counterexample shows. -/
theorem c1_entry_index_bound (O : Oracle) (hws : List String) (s : St)
    (hWF : OracleWF O) (hr : Reachable O hws s) (n : Nat)
    (hn : dict_get s.data.headword_entry_count (current_word hws s) = some n)
    (hnz : n ≠ 0) :
    0 ≤ s.data.entry_index ∧ s.data.entry_index ≤ n :=
  ⟨Nat.zero_le _, (reachable_inv O hws hWF s hr).entryOk n hn⟩

/-- Closed instance of `c1_entry_index_bound` at the fresh startup state of
a two-entry word list. -/
theorem c1_entry_index_bound_witness :
    ∃ s, Reachable
        (fun w => if w = "solo" then
          .ok (some ⟨"solo", [⟨"solo:1", "adjective", ["alone"]⟩,
            ⟨"solo:2", "adverb", ["only"]⟩]⟩) else .ok none)
        ["solo"] s ∧
      0 ≤ s.data.entry_index ∧ s.data.entry_index ≤ 2 := by
  have hinit : init_state
      (fun w => if w = "solo" then
        .ok (some ⟨"solo", [⟨"solo:1", "adjective", ["alone"]⟩,
          ⟨"solo:2", "adverb", ["only"]⟩]⟩) else .ok none)
      ["solo"] StateData.fresh =
      some ⟨⟨0, 0, [("solo", 2)]⟩,
        fun w' => if w' = "solo" then
          some ⟨"solo", [⟨"solo:1", "adjective", ["alone"]⟩,
            ⟨"solo:2", "adverb", ["only"]⟩]⟩ else none⟩ := by
    simp [init_state, ensure_valid_state, get_term_for_headword,
      advance_headword, step_index, dict_set, StateData.fresh]
  have hwf : OracleWF (fun w => if w = "solo" then
      .ok (some ⟨"solo", [⟨"solo:1", "adjective", ["alone"]⟩,
        ⟨"solo:2", "adverb", ["only"]⟩]⟩) else .ok none) := by
    intro w t h
    by_cases hw : w = "solo"
    · subst hw
      have h' : (⟨"solo", [⟨"solo:1", "adjective", ["alone"]⟩,
          ⟨"solo:2", "adverb", ["only"]⟩]⟩ : DictionaryTerm) = t := by
        simpa using h
      subst h'
      exact ⟨rfl, by simp⟩
    · simp [hw] at h
  refine ⟨_, Reachable.fresh _ hinit,
    c1_entry_index_bound _ ["solo"] _ hwf (Reachable.fresh _ hinit) 2 ?_
      (by decide)⟩
  simp [dict_get, current_word]

end SFB
